import Mathlib

/-!
Verification of the core link pipeline of the mold linker (src/main.cc and
src/elf/output-file.cc) against its natural-language specification.

The C++ sources are shallowly embedded as executable Lean definitions.
Machine integers (u32/u64) never overflow in the modelled code paths, so they
are modelled as Nat.  Helpers that live in mold.h (which is not part of the
two source files), such as align_to and the ElfSym classification predicates,
are modelled from the specification and are marked as such in their doc
comments.
-/

namespace Mold

/-- ELF section flag SHF_WRITE (standard ELF constant used by main.cc). -/
def SHF_WRITE : Nat := 1

/-- ELF section flag SHF_ALLOC. -/
def SHF_ALLOC : Nat := 2

/-- ELF section flag SHF_EXECINSTR. -/
def SHF_EXECINSTR : Nat := 4

/-- ELF section flag SHF_TLS. -/
def SHF_TLS : Nat := 0x400

/-- ELF section type SHT_NOBITS. -/
def SHT_NOBITS : Nat := 8

/-- Modelled from the spec: PAGE_SIZE from mold.h (4096, the x86-64 page size
used by set_osec_offsets). -/
def PAGE_SIZE : Nat := 4096

/-- Section-header record: the fields of ElfShdr that src/main.cc reads or
writes (sh_type, sh_flags, sh_addr, sh_offset, sh_size, sh_addralign). -/
structure ElfShdr where
  sh_type : Nat := 0
  sh_flags : Nat := 0
  sh_addr : Nat := 0
  sh_offset : Nat := 0
  sh_size : Nat := 0
  sh_addralign : Nat := 1
  deriving Repr, DecidableEq

/-- The section-rank key computed from the five classification bits, exactly
the return expression of get_section_rank in src/main.cc:
(!alloc << 5) | (writable << 4) | (exec << 3) | (!tls << 2) | nobits. -/
def rankBits (alloc writable exec tls nobits : Bool) : Nat :=
  ((!alloc).toNat <<< 5) ||| (writable.toNat <<< 4) ||| (exec.toNat <<< 3) |||
    ((!tls).toNat <<< 2) ||| nobits.toNat

/-- get_section_rank from src/main.cc: extract the five classification bits
from the section header and combine them with rankBits. -/
def get_section_rank (shdr : ElfShdr) : Nat :=
  rankBits (shdr.sh_flags &&& SHF_ALLOC != 0) (shdr.sh_flags &&& SHF_WRITE != 0)
    (shdr.sh_flags &&& SHF_EXECINSTR != 0) (shdr.sh_flags &&& SHF_TLS != 0)
    (shdr.sh_type == SHT_NOBITS)

/-- The seven section classes enumerated by the comment above
get_section_rank, as a function of the five classification bits:
0 alloc read-only data, 1 alloc read-only code, 2 alloc writable tdata,
3 alloc writable tbss, 4 alloc writable data, 5 alloc writable bss,
6 non-alloc.  Writable data classes are non-executable; a section fitting
no class (e.g. writable and executable) gets none. -/
def classBits (alloc writable exec tls nobits : Bool) : Option (Fin 7) :=
  if !alloc then some 6
  else if !writable then (if exec then some 1 else some 0)
  else if exec then none
  else if tls then (if nobits then some 3 else some 2)
  else if nobits then some 5
  else some 4

/-- The section class of a section header (see classBits). -/
def sectionClass (shdr : ElfShdr) : Option (Fin 7) :=
  classBits (shdr.sh_flags &&& SHF_ALLOC != 0) (shdr.sh_flags &&& SHF_WRITE != 0)
    (shdr.sh_flags &&& SHF_EXECINSTR != 0) (shdr.sh_flags &&& SHF_TLS != 0)
    (shdr.sh_type == SHT_NOBITS)

/-! ### Input classification (src/main.cc, get_file_type / is_text_file / read_file) -/

/-- ELF e_type value ET_REL (relocatable object). -/
def ET_REL : Nat := 1

/-- ELF e_type value ET_DYN (shared object). -/
def ET_DYN : Nat := 3

/-- The 4-byte ELF magic 0x7f 'E' 'L' 'F'. -/
def elfMagic : List Nat := [0x7f, 0x45, 0x4c, 0x46]

/-- The 8-byte archive magic: the ASCII bytes of !<arch> followed by a
newline. -/
def arMagic : List Nat := [0x21, 0x3c, 0x61, 0x72, 0x63, 0x68, 0x3e, 0x0a]

/-- The 8-byte thin-archive magic: the ASCII bytes of !<thin> followed by a
newline. -/
def thinMagic : List Nat := [0x21, 0x3c, 0x74, 0x68, 0x69, 0x6e, 0x3e, 0x0a]

/-- C isprint in the C locale: printable characters are 0x20..0x7e.  Input
bytes are values below 256. -/
def isprintB (c : Nat) : Bool := decide (0x20 ≤ c) && decide (c ≤ 0x7e)

/-- is_text_file from src/main.cc: at least four bytes and the first four
are printable. -/
def is_text_file (mb : List Nat) : Bool :=
  decide (4 ≤ mb.length) && isprintB (mb.getD 0 0) && isprintB (mb.getD 1 0) &&
    isprintB (mb.getD 2 0) && isprintB (mb.getD 3 0)

/-- The e_type field of an ELF header: a little-endian u16 at byte offset 16
(read in src/main.cc by casting the mapped bytes to ElfEhdr). -/
def e_type (mb : List Nat) : Nat := mb.getD 16 0 + 256 * mb.getD 17 0

/-- The file-type enumeration from src/main.cc. -/
inductive FileType
  | UNKNOWN
  | OBJ
  | DSO
  | AR
  | THIN_AR
  | TEXT
  deriving Repr, DecidableEq

/-- get_file_type from src/main.cc: ELF blobs of at least 20 bytes are OBJ
(ET_REL), DSO (ET_DYN) or UNKNOWN; then the two archive magics; then the
printable-text check; otherwise UNKNOWN. -/
def get_file_type (mb : List Nat) : FileType :=
  if 20 ≤ mb.length ∧ mb.take 4 = elfMagic then
    if e_type mb = ET_REL then .OBJ
    else if e_type mb = ET_DYN then .DSO
    else .UNKNOWN
  else if 8 ≤ mb.length ∧ mb.take 8 = arMagic then .AR
  else if 8 ≤ mb.length ∧ mb.take 8 = thinMagic then .THIN_AR
  else if is_text_file mb then .TEXT
  else .UNKNOWN

/-- What each branch of the switch in read_file (src/main.cc) does with the
classified input. -/
inductive ReadAction
  | addObj
  | addDso
  | readArchiveMembers
  | readThinArchiveMembers
  | runLinkerScript
  deriving Repr, DecidableEq

/-- read_file from src/main.cc, reduced to its dispatch skeleton: each switch
case handles one file type, and the default case reports a fatal
unknown-file-type error (modelled as the error branch of Except). -/
def read_file (mb : List Nat) : Except Unit ReadAction :=
  match get_file_type mb with
  | .OBJ => .ok .addObj
  | .DSO => .ok .addDso
  | .AR => .ok .readArchiveMembers
  | .THIN_AR => .ok .readThinArchiveMembers
  | .TEXT => .ok .runLinkerScript
  | .UNKNOWN => .error ()

/-! ### Argument walker (src/main.cc, get_input_files) -/

/-- get_input_files from src/main.cc.  Its collection loop is guarded by
the condition that args is empty (while (args.empty())): for a non-empty
argument list the loop body never runs and the accumulated vec, still the
initial empty vector, is returned.  When args is empty the guard holds
and the body immediately indexes the first element of an empty span,
which has no defined behaviour; that path is modelled as none.
Arguments are abstract tokens. -/
def get_input_files (args : List Nat) : Option (List Nat) :=
  if args.isEmpty then none else some []

/-! ### Work splitting (src/main.cc, split and bin_sections) -/

/-- The while loop of split from src/main.cc, with explicit fuel: as long as
the remaining span has at least unit elements, push the first unit elements
and drop them; after the loop, push the remainder if non-empty.  none means
the fuel ran out (the loop was still running). -/
def split_loop (unit : Nat) : Nat → List α → List (List α) → Option (List (List α))
  | 0, _, _ => none
  | fuel + 1, span, vec =>
    if unit ≤ span.length then
      split_loop unit fuel (span.drop unit) (vec ++ [span.take unit])
    else if span.isEmpty then some vec
    else some (vec ++ [span])

/-- split from src/main.cc: the assertion that the input is non-empty
(modelled as the error branch), then the fueled loop starting from the whole
input and an empty vec. -/
def split (fuel : Nat) (input : List α) (unit : Nat) :
    Except Unit (Option (List (List α))) :=
  if input.isEmpty then .error () else .ok (split_loop unit fuel input [])

/-- The value of what split computes when unit is at least 1: the terminating
reference used to state the result of the fueled loop. -/
def splitChunks (unit : Nat) (span : List α) : List (List α) :=
  if h : 1 ≤ unit ∧ unit ≤ span.length then
    span.take unit :: splitChunks unit (span.drop unit)
  else if span.isEmpty then [] else [span]
termination_by span.length
decreasing_by simp only [List.length_drop]; omega

/-- The slice size computed by bin_sections in src/main.cc:
(number of object files + 127) / 128. -/
def bin_sections_unit (nobjs : Nat) : Nat := (nobjs + 127) / 128

/-! ### File priorities (src/main.cc, main) -/

/-- An object file as seen by the priority-assignment loops of main:
only the is_in_archive flag matters there. -/
structure PrioFile where
  is_in_archive : Bool
  deriving Repr, DecidableEq

/-- One of the two priority-assignment loops over the object list in main
(src/main.cc): each file satisfying the selection predicate receives the
next consecutive priority; other entries are left unchanged. -/
def prio_loop (pred : PrioFile → Bool) :
    List (PrioFile × Option Nat) → Nat → List (PrioFile × Option Nat) × Nat
  | [], p => ([], p)
  | (f, pr) :: rest, p =>
    if pred f then
      let r := prio_loop pred rest (p + 1)
      ((f, some p) :: r.1, r.2)
    else
      let r := prio_loop pred rest p
      ((f, pr) :: r.1, r.2)

/-- The priority assignment in main (src/main.cc): starting from priority 2
(priority 1 is reserved for the internal file), first the non-archive
object files in list order, then the archive-member object files in list
order, then the shared files in list order.  Returns the per-object
priorities (in object-list order), the per-shared-file priorities, and the
final counter value. -/
def set_file_priorities (objs : List PrioFile) (ndsos : Nat) :
    List (Option Nat) × List Nat × Nat :=
  let s0 := objs.map (fun f => (f, (none : Option Nat)))
  let r1 := prio_loop (fun f => !f.is_in_archive) s0 2
  let r2 := prio_loop (fun f => f.is_in_archive) r1.1 r1.2
  (r2.1.map (fun x => x.2), (List.range ndsos).map (fun m => r2.2 + m), r2.2 + ndsos)

/-! ### Output chunks, layout and padding (src/main.cc, src/elf/output-file.cc) -/

/-- An output chunk as used by set_osec_offsets and clear_padding: its
section header and the starts_new_ptload hint. -/
structure OutputChunk where
  shdr : ElfShdr := {}
  starts_new_ptload : Bool := false
  deriving Repr, DecidableEq

/-- The start of the padding following a chunk, from the zero lambda in
clear_padding (src/main.cc): sh_offset, plus sh_size unless the chunk is
SHT_NOBITS. -/
def logical_end (c : OutputChunk) : Nat :=
  if c.shdr.sh_type = SHT_NOBITS then c.shdr.sh_offset
  else c.shdr.sh_offset + c.shdr.sh_size

/-- memset(out::buf + lo, 0, hi - lo) on a byte-addressed buffer.  The
modelled code only calls it with lo ≤ hi (chunks are laid out in file-offset
order); for lo > hi the Nat model zeroes nothing. -/
def zeroRange (buf : Nat → Nat) (lo hi : Nat) : Nat → Nat :=
  fun p => if lo ≤ p ∧ p < hi then 0 else buf p

/-- The loop of clear_padding from src/main.cc: zero from the logical end
of each chunk to the next chunk's sh_offset, and from the logical end of
the last chunk to the file size. -/
def clear_padding_loop : OutputChunk → List OutputChunk → Nat → (Nat → Nat) → Nat → Nat
  | prev, [], filesize, buf => zeroRange buf (logical_end prev) filesize
  | prev, c :: rest, filesize, buf =>
      clear_padding_loop c rest filesize (zeroRange buf (logical_end prev) c.shdr.sh_offset)

/-- clear_padding from src/main.cc.  The source indexes out::chunks.back(),
so the chunk list is non-empty in every call; the empty case is modelled as
the unchanged buffer. -/
def clear_padding (chunks : List OutputChunk) (filesize : Nat) (buf : Nat → Nat) :
    Nat → Nat :=
  match chunks with
  | [] => buf
  | c :: rest => clear_padding_loop c rest filesize buf

/-- The half-open intervals zeroed by clear_padding, in loop order. -/
def gaps_loop : OutputChunk → List OutputChunk → Nat → List (Nat × Nat)
  | prev, [], filesize => [(logical_end prev, filesize)]
  | prev, c :: rest, filesize =>
      (logical_end prev, c.shdr.sh_offset) :: gaps_loop c rest filesize

/-- All inter-chunk padding intervals plus the trailing interval. -/
def padding_gaps (chunks : List OutputChunk) (filesize : Nat) : List (Nat × Nat) :=
  match chunks with
  | [] => []
  | c :: rest => gaps_loop c rest filesize

/-- A fresh output mapping is all zero (both backends of
src/elf/output-file.cc mmap zero-filled pages after ftruncate). -/
def mmap_zero : Nat → Nat := fun _ => 0

/-- OutputFile::open from src/elf/output-file.cc: after creating the
mapping, if a filler byte is configured (filler != -1) the whole buffer
below the file size is pre-filled with the filler byte (memset truncates
the value to one byte). -/
def OutputFile_open_buf (filler : Int) (filesize : Nat) : Nat → Nat :=
  if filler ≠ -1 then
    fun p => if p < filesize then filler.toNat % 256 else mmap_zero p
  else mmap_zero

/-- The output-image pipeline of main (src/main.cc): open the output file
(which pre-fills with the filler byte before anything else), run every
chunk's copy_buf (an arbitrary buffer transformation supplied by the
per-architecture chunk implementations), then clear_padding. -/
def output_image (filler : Int) (copy : (Nat → Nat) → Nat → Nat)
    (chunks : List OutputChunk) (filesize : Nat) : Nat → Nat :=
  clear_padding chunks filesize (copy (OutputFile_open_buf filler filesize))

/-- Modelled from the spec: align_to from mold.h rounds a value up to the
next multiple of the alignment (ELF alignments are powers of two; the
bit-mask in mold.h computes exactly this round-up).  Alignment 0 leaves the
value unchanged. -/
def align_to (x a : Nat) : Nat := if a = 0 then x else (x + a - 1) / a * a

/-- The vaddr realignment at the start of the layout loop of
set_osec_offsets (src/main.cc): chunks that start a new PT_LOAD round vaddr
up to a page boundary. -/
def osec_v1 (vaddr : Nat) (c : OutputChunk) : Nat :=
  if c.starts_new_ptload then align_to vaddr PAGE_SIZE else vaddr

/-- The fileoff re-synchronization of set_osec_offsets (src/main.cc): make
fileoff agree with vaddr modulo PAGE_SIZE, either by advancing within the
current page or by skipping to the matching position in the next page. -/
def osec_f1 (fileoff v1 : Nat) : Nat :=
  if v1 % PAGE_SIZE > fileoff % PAGE_SIZE then
    fileoff + (v1 % PAGE_SIZE - fileoff % PAGE_SIZE)
  else if v1 % PAGE_SIZE < fileoff % PAGE_SIZE then
    align_to fileoff PAGE_SIZE + v1 % PAGE_SIZE
  else fileoff

/-- One iteration of the layout loop of set_osec_offsets (src/main.cc):
realign vaddr at a new PT_LOAD, re-synchronize fileoff with vaddr modulo
PAGE_SIZE, align both to the chunk alignment, record sh_offset (and sh_addr
for SHF_ALLOC chunks), then advance fileoff unless SHT_NOBITS and advance
vaddr unless the chunk is SHT_NOBITS and SHF_TLS.  Returns the updated
chunk and the new (fileoff, vaddr). -/
def osec_step (fileoff vaddr : Nat) (c : OutputChunk) : OutputChunk × Nat × Nat :=
  let v1 := osec_v1 vaddr c
  let f1 := osec_f1 fileoff v1
  let f2 := align_to f1 c.shdr.sh_addralign
  let v2 := align_to v1 c.shdr.sh_addralign
  ({ c with shdr := { c.shdr with
      sh_offset := f2,
      sh_addr := if c.shdr.sh_flags &&& SHF_ALLOC ≠ 0 then v2 else c.shdr.sh_addr } },
   if c.shdr.sh_type = SHT_NOBITS then f2 else f2 + c.shdr.sh_size,
   if c.shdr.sh_type = SHT_NOBITS ∧ c.shdr.sh_flags &&& SHF_TLS ≠ 0 then v2
   else v2 + c.shdr.sh_size)

/-- The loop of set_osec_offsets over the chunk list, threading
(fileoff, vaddr) and collecting the updated chunks; returns the final
fileoff. -/
def set_osec_offsets_loop : List OutputChunk → Nat → Nat → List OutputChunk × Nat
  | [], fileoff, _ => ([], fileoff)
  | c :: rest, fileoff, vaddr =>
      let s := osec_step fileoff vaddr c
      let r := set_osec_offsets_loop rest s.2.1 s.2.2
      (s.1 :: r.1, r.2)

/-- set_osec_offsets from src/main.cc: fileoff starts at 0 and vaddr at the
configured image base. -/
def set_osec_offsets (chunks : List OutputChunk) (image_base : Nat) :
    List OutputChunk × Nat :=
  set_osec_offsets_loop chunks 0 image_base

/-- The advance relation on file offsets: the next chunk starts at or after
the previous chunk's logical end (sh_offset advanced by sh_size unless
SHT_NOBITS). -/
def advOff (a b : OutputChunk) : Prop := logical_end a ≤ b.shdr.sh_offset

/-- The advance relation on virtual addresses of SHF_ALLOC chunks: the next
address is at or after the previous address advanced by sh_size unless the
previous chunk is SHT_NOBITS and SHF_TLS. -/
def advAddr (a b : OutputChunk) : Prop :=
  a.shdr.sh_addr +
    (if a.shdr.sh_type = SHT_NOBITS ∧ a.shdr.sh_flags &&& SHF_TLS ≠ 0 then 0
     else a.shdr.sh_size) ≤ b.shdr.sh_addr

/-- The fragment of main (src/main.cc) wiring layout to output: the value
returned by set_osec_offsets is the file size handed to OutputFile::open
(which pre-fills the buffer) and to clear_padding. -/
def main_output (chunks : List OutputChunk) (image_base : Nat) (filler : Int)
    (copy : (Nat → Nat) → Nat → Nat) : (Nat → Nat) × Nat :=
  let r := set_osec_offsets chunks image_base
  (output_image filler copy r.1 r.2, r.2)

/-! ### Input-section offsets (src/main.cc, set_isec_offsets) -/

/-- An input section as used by set_isec_offsets: its section header and
its offset within the output section. -/
structure InputChunk where
  shdr : ElfShdr := {}
  offset : Nat := 0
  deriving Repr, DecidableEq

/-- The per-slice body of set_isec_offsets (src/main.cc): starting from a
local offset 0 and alignment 1, align the running offset up to each
member's sh_addralign, record it as the member's offset, advance by the
member's sh_size, and track the maximum alignment.  Returns the updated
members, the slice's end offset, and the slice's maximum alignment. -/
def isec_slice_layout : List InputChunk → Nat → Nat → List InputChunk × Nat × Nat
  | [], off, align => ([], off, align)
  | i :: rest, off, align =>
      let o := align_to off i.shdr.sh_addralign
      let r := isec_slice_layout rest (o + i.shdr.sh_size) (max align i.shdr.sh_addralign)
      ({ i with offset := o } :: r.1, r.2)

/-- The slice start offsets of set_isec_offsets (src/main.cc): the first
slice starts at 0 (the loop that rebases runs from slice 1 because slice 0
has start 0), and each following slice starts at the previous start plus the
previous slice size, aligned up to the overall alignment. -/
def isec_starts : List Nat → Nat → Nat → List Nat
  | [], _, _ => []
  | sz :: rest, align, cur => cur :: isec_starts rest align (align_to (cur + sz) align)

/-- The rebasing pass of set_isec_offsets (src/main.cc), fused with the
prefix scan of slice starts: each slice's members have their offsets
shifted by the slice start, and the returned size is the last slice's
start plus the last slice's end offset. -/
def isec_rebase : List (List InputChunk × Nat × Nat) → Nat → Nat → List InputChunk × Nat
  | [], _, cur => ([], cur)
  | [L], _, cur => (L.1.map (fun m => { m with offset := m.offset + cur }), cur + L.2.1)
  | L :: rest, align, cur =>
      let out := L.1.map (fun m => { m with offset := m.offset + cur })
      let r := isec_rebase rest align (align_to (cur + L.2.1) align)
      (out ++ r.1, r.2)

/-- set_isec_offsets (src/main.cc) for one non-empty output section: split
the members into slices of 10000, lay each slice out locally, take the
overall maximum alignment, rebase each slice to its start offset, and
return the members with final offsets, the section size (last start plus
last end), and the section alignment. -/
def set_isec_offsets_osec (members : List InputChunk) : List InputChunk × Nat × Nat :=
  let slices := splitChunks 10000 members
  let layouts := slices.map (fun sl => isec_slice_layout sl 0 1)
  let align := (layouts.map (fun l => l.2.2)).foldl max 0
  let r := isec_rebase layouts align 0
  (r.1, r.2, align)

/-! ### Symbol versioning (src/main.cc, fill_symbol_versions) -/

/-- A dynamic symbol as used by fill_symbol_versions: the identity of its
defining shared file, that file soname (used as the sort key), the symbol
version index, and its index in .dynsym. -/
structure DynSymbol where
  fileId : Nat
  soname : Nat
  ver_idx : Nat
  dynsym_idx : Nat
  deriving Repr, DecidableEq

/-- The mutable state of the fill_symbol_versions walk: the running Vernaux
counter (vna_other values), the number of Verneed records emitted (sh_info
increments), the number of Vernaux records emitted, and the .gnu.version
writes in order. -/
structure VerState where
  version : Nat
  nVerneed : Nat
  nVernaux : Nat
  writes : List (Nat × Nat)
  deriving Repr, DecidableEq

/-- add_aux from fill_symbol_versions (src/main.cc): emit one Vernaux and
advance the version counter. -/
def ver_add_aux (st : VerState) : VerState :=
  { st with version := st.version + 1, nVernaux := st.nVernaux + 1 }

/-- add_verneed from fill_symbol_versions (src/main.cc): emit one Verneed
(sh_info increment) and its first Vernaux. -/
def ver_add_verneed (st : VerState) : VerState :=
  ver_add_aux { st with nVerneed := st.nVerneed + 1 }

/-- The loop of fill_symbol_versions over the sorted symbols (src/main.cc),
carrying the previous symbol: a new file emits a Verneed, a new version
index within the same file emits a Vernaux, and every symbol writes the
current version counter at its dynsym index. -/
def fill_walk : DynSymbol → List DynSymbol → VerState → VerState
  | _, [], st => st
  | prev, s :: rest, st =>
      let st2 := if s.fileId ≠ prev.fileId then ver_add_verneed st
                 else if s.ver_idx ≠ prev.ver_idx then ver_add_aux st
                 else st
      fill_walk s rest { st2 with writes := st2.writes ++ [(s.dynsym_idx, st2.version)] }

/-- fill_symbol_versions (src/main.cc), taking the dynsym count and the
already-filtered (ver_idx at least 2) and sorted symbol list: none models
the early return on an empty list (the sections stay untouched); otherwise
.gnu.version is sized to dynsym count + 1 filled with 1, entry 0 is set to
0, the first symbol emits a Verneed, and the loop processes the rest; the
accumulated writes are applied to the contents. -/
def fill_symbol_versions (dynsymCount : Nat) (syms : List DynSymbol) :
    Option (List Nat × VerState) :=
  match syms with
  | [] => none
  | s0 :: rest =>
      let st0 := ver_add_verneed { version := 1, nVerneed := 0, nVernaux := 0, writes := [] }
      let fin := fill_walk s0 rest { st0 with writes := [(s0.dynsym_idx, st0.version)] }
      let contents0 := (List.replicate (dynsymCount + 1) 1).set 0 0
      some (fin.writes.foldl (fun c w => c.set w.1 w.2) contents0, fin)

/-- The number of file boundaries the walk sees after its first symbol. -/
def fileBounds : DynSymbol → List DynSymbol → Nat
  | _, [] => 0
  | prev, s :: rest => (if s.fileId ≠ prev.fileId then 1 else 0) + fileBounds s rest

/-- The number of (file, ver_idx) boundaries the walk sees after its first
symbol, i.e. the number of Vernaux records emitted by the loop. -/
def pairBounds : DynSymbol → List DynSymbol → Nat
  | _, [] => 0
  | prev, s :: rest =>
      (if s.fileId ≠ prev.fileId ∨ s.ver_idx ≠ prev.ver_idx then 1 else 0) + pairBounds s rest

/-- The .gnu.version writes produced by the loop after the first symbol,
given the number of Vernaux records already emitted. -/
def walkWrites : DynSymbol → List DynSymbol → Nat → List (Nat × Nat)
  | _, [], _ => []
  | prev, s :: rest, n =>
      let n2 := n + (if s.fileId ≠ prev.fileId ∨ s.ver_idx ≠ prev.ver_idx then 1 else 0)
      (s.dynsym_idx, 1 + n2) :: walkWrites s rest n2

/-- The sort order of fill_symbol_versions (src/main.cc): by the defining
file soname, then by version index. -/
def verLexLe (a b : DynSymbol) : Prop :=
  a.soname < b.soname ∨ (a.soname = b.soname ∧ a.ver_idx ≤ b.ver_idx)

/-- The soname is a function of the defining file and, because main
uniquifies shared files by soname, also determines it. -/
def sonameCoherent (l : List DynSymbol) : Prop :=
  (∀ a ∈ l, ∀ b ∈ l, a.fileId = b.fileId → a.soname = b.soname) ∧
  (∀ a ∈ l, ∀ b ∈ l, a.soname = b.soname → a.fileId = b.fileId)

/-! ### Duplicate-symbol check (src/main.cc, check_duplicate_symbols) -/

/-- ELF symbol binding STB_WEAK. -/
def STB_WEAK : Nat := 2

/-- ELF special section index SHN_UNDEF. -/
def SHN_UNDEF : Nat := 0

/-- ELF special section index SHN_ABS. -/
def SHN_ABS : Nat := 0xfff1

/-- ELF special section index SHN_COMMON. -/
def SHN_COMMON : Nat := 0xfff2

/-- The fields of an ELF symbol entry used by check_duplicate_symbols and
symbol resolution. -/
structure ElfSym where
  st_bind : Nat := 1
  st_shndx : Nat := 0
  st_size : Nat := 0
  deriving Repr, DecidableEq

/-- Modelled from the spec: ElfSym.is_abs declared in mold.h (not under
src/), the standard ELF test against SHN_ABS. -/
def ElfSym.is_abs (e : ElfSym) : Bool := e.st_shndx == SHN_ABS

/-- Modelled from the spec: ElfSym.is_common declared in mold.h, the
standard ELF test against SHN_COMMON. -/
def ElfSym.is_common (e : ElfSym) : Bool := e.st_shndx == SHN_COMMON

/-- Modelled from the spec: ElfSym.is_defined declared in mold.h, true when
the entry is not undefined (st_shndx is not SHN_UNDEF). -/
def ElfSym.is_defined (e : ElfSym) : Bool := e.st_shndx != SHN_UNDEF

/-- An object file as seen by check_duplicate_symbols: its identity, its
priority, the split between local and global symbol entries, the entries
themselves, the interned-symbol name of each entry, and which section slots
hold a live (non-null) section. -/
structure ObjectFile where
  id : Nat
  priority : Nat
  first_global : Nat
  elf_syms : List ElfSym
  symNames : List Nat
  sections : List Bool
  deriving Repr, DecidableEq

/-- A resolution candidate: a defined global entry of some file. -/
structure Candidate where
  fileId : Nat
  priority : Nat
  esym : ElfSym
  deriving Repr, DecidableEq

/-- Modelled from the spec: the strength ordering of symbol resolution
(section 4.2): strong definitions (3) override common (tentative)
definitions (2), which override weak definitions (1); undefined entries
never define (0). -/
def strengthOf (e : ElfSym) : Nat :=
  if !e.is_defined then 0
  else if e.st_bind == STB_WEAK then 1
  else if e.is_common then 2
  else 3

/-- Modelled from the spec: the replacement rule of symbol resolution
(section 4.2): a new candidate wins on strictly greater strength; at equal
strength, commons prefer the larger size then the smaller priority, and
other entries prefer the smaller priority. -/
def cand_better (new cur : Candidate) : Bool :=
  if strengthOf new.esym > strengthOf cur.esym then true
  else if strengthOf new.esym < strengthOf cur.esym then false
  else if new.esym.is_common then
    (decide (new.esym.st_size > cur.esym.st_size)) ||
      ((new.esym.st_size == cur.esym.st_size) && decide (new.priority < cur.priority))
  else decide (new.priority < cur.priority)

/-- Modelled from the spec: one compare-and-install update of section 4.2
(sequentialized; the rule is order-independent up to ties, and only the
winner's strength matters below). -/
def resolve_step (acc : Option Candidate) (c : Candidate) : Option Candidate :=
  match acc with
  | none => some c
  | some cur => if cand_better c cur then some c else some cur

/-- Modelled from the spec: the winner is the fold of the replacement rule
over the candidates. -/
def resolveCands (cands : List Candidate) : Option Candidate :=
  cands.foldl resolve_step none

/-- Modelled from the spec: the defined global entries of all files for a
symbol name (stage 1 of resolve_symbols registers exactly these). -/
def candidates (objs : List ObjectFile) (name : Nat) : List Candidate :=
  objs.flatMap (fun f =>
    (List.range f.elf_syms.length).filterMap (fun i =>
      if f.first_global ≤ i ∧ f.symNames.getD i 0 = name ∧
          (f.elf_syms.getD i ⟨1, 0, 0⟩).is_defined then
        some ⟨f.id, f.priority, f.elf_syms.getD i ⟨1, 0, 0⟩⟩
      else none))

/-- The symbol's chosen defining file and entry (sym.file in the source). -/
def resolved (objs : List ObjectFile) (name : Nat) : Option Candidate :=
  resolveCands (candidates objs name)

/-- The condition of the Error emission in check_duplicate_symbols
(src/main.cc): the entry is defined, not STB_WEAK, not eliminated (an
entry is eliminated when it is neither absolute nor common and its section
slot is null), and the interned symbol's chosen file is a different
file. -/
def dup_cond (objs : List ObjectFile) (f : ObjectFile) (i : Nat) : Bool :=
  let esym := f.elf_syms.getD i ⟨1, 0, 0⟩
  let is_weak := esym.st_bind == STB_WEAK
  let is_eliminated :=
    !esym.is_abs && !esym.is_common && !(f.sections.getD esym.st_shndx false)
  esym.is_defined && !is_weak && !is_eliminated &&
    decide ((resolved objs (f.symNames.getD i 0)).map (fun c => c.fileId) ≠ some f.id)

/-- check_duplicate_symbols (src/main.cc): for every file and every global
entry index, accumulate an error when the emission condition holds; the
returned flag is the Error::checkpoint at the end of the pass, which fails
exactly when at least one error was accumulated. -/
def check_duplicate_symbols (objs : List ObjectFile) : List (Nat × Nat) × Bool :=
  let errors := objs.flatMap (fun f =>
    ((List.range f.elf_syms.length).filter (fun i =>
      decide (f.first_global ≤ i) && dup_cond objs f i)).map (fun i => (f.id, i)))
  (errors, !errors.isEmpty)

/-! ## Theorems -/

lemma rankBits_eq_add (a w e t nb : Bool) :
    rankBits a w e t nb =
      32 * (!a).toNat + 16 * w.toNat + 8 * e.toNat + 4 * (!t).toNat + nb.toNat := by
  revert a w e t nb; decide

lemma classBits_rank_strict_mono (a w e t nb a2 w2 e2 t2 nb2 : Bool) (i j : Fin 7)
    (hi : classBits a w e t nb = some i) (hj : classBits a2 w2 e2 t2 nb2 = some j)
    (hij : i < j) : rankBits a w e t nb < rankBits a2 w2 e2 t2 nb2 := by
  revert a w e t nb a2 w2 e2 t2 nb2 i j; decide

lemma take_eight_len {mb l : List Nat} (hl : l.length = 8) (h : mb.take 8 = l) :
    8 ≤ mb.length := by
  have hlen := congrArg List.length h
  simp only [List.length_take, hl] at hlen
  omega

lemma take_four_of_take_eight {mb l : List Nat} (h : mb.take 8 = l) :
    mb.take 4 = l.take 4 := by
  have h44 : mb.take 4 = (mb.take 8).take 4 := by
    rw [List.take_take]
    norm_num
  rw [h44, h]

lemma getD_zero_of_take_four_elf {mb : List Nat} (h : mb.take 4 = elfMagic) :
    mb.getD 0 0 = 0x7f := by
  cases mb with
  | nil => simp [elfMagic] at h
  | cons b rest =>
    simp only [List.take_succ_cons, elfMagic, List.cons.injEq] at h
    simp [h.1]

lemma is_text_file_first_byte {mb : List Nat} (h : is_text_file mb = true) :
    0x20 ≤ mb.getD 0 0 ∧ mb.getD 0 0 ≤ 0x7e := by
  simp only [is_text_file, isprintB, Bool.and_eq_true, decide_eq_true_eq] at h
  tauto

lemma not_text_of_elf_magic {mb : List Nat} (h : mb.take 4 = elfMagic) :
    is_text_file mb = false := by
  by_contra hc
  rw [Bool.not_eq_false] at hc
  have hb := is_text_file_first_byte hc
  rw [getD_zero_of_take_four_elf h] at hb
  omega

lemma not_elf_of_ar {mb : List Nat} (h : mb.take 8 = arMagic) :
    mb.take 4 ≠ elfMagic := by
  have := take_four_of_take_eight h
  rw [this]
  simp [arMagic, elfMagic]

lemma not_elf_of_thin {mb : List Nat} (h : mb.take 8 = thinMagic) :
    mb.take 4 ≠ elfMagic := by
  have := take_four_of_take_eight h
  rw [this]
  simp [thinMagic, elfMagic]

/-- C7: get_file_type classifies a mapped blob as OBJ exactly when it is at
least 20 bytes long, starts with the ELF magic and has e_type ET_REL; as DSO
likewise with ET_DYN; as AR exactly when it starts with the 8-byte archive
magic; as THIN_AR with the thin-archive magic; as TEXT exactly when none of
those cases applies and its first four bytes exist and are printable; and as
UNKNOWN otherwise, which is exactly the case in which read_file fails
fatally with the unknown-file-type error. -/
theorem c7_get_file_type_classification (mb : List Nat) :
    (get_file_type mb = .OBJ ↔
      20 ≤ mb.length ∧ mb.take 4 = elfMagic ∧ e_type mb = ET_REL) ∧
    (get_file_type mb = .DSO ↔
      20 ≤ mb.length ∧ mb.take 4 = elfMagic ∧ e_type mb = ET_DYN) ∧
    (get_file_type mb = .AR ↔ mb.take 8 = arMagic) ∧
    (get_file_type mb = .THIN_AR ↔ mb.take 8 = thinMagic) ∧
    (get_file_type mb = .TEXT ↔
      ¬(20 ≤ mb.length ∧ mb.take 4 = elfMagic ∧ e_type mb = ET_REL) ∧
      ¬(20 ≤ mb.length ∧ mb.take 4 = elfMagic ∧ e_type mb = ET_DYN) ∧
      mb.take 8 ≠ arMagic ∧ mb.take 8 ≠ thinMagic ∧ is_text_file mb = true) ∧
    (get_file_type mb = .UNKNOWN ↔ read_file mb = .error ()) := by
  have harlen : mb.take 8 = arMagic → 8 ≤ mb.length := fun h =>
    take_eight_len (by decide) h
  have hthinlen : mb.take 8 = thinMagic → 8 ≤ mb.length := fun h =>
    take_eight_len (by decide) h
  by_cases hA : 20 ≤ mb.length ∧ mb.take 4 = elfMagic
  · have har : mb.take 8 ≠ arMagic := fun h => not_elf_of_ar h hA.2
    have hthin : mb.take 8 ≠ thinMagic := fun h => not_elf_of_thin h hA.2
    have htext : is_text_file mb = false := not_text_of_elf_magic hA.2
    by_cases hrel : e_type mb = ET_REL
    · have hft : get_file_type mb = .OBJ := by
        simp [get_file_type, hA, hrel]
      simp [hft, read_file, hA, hrel, har, hthin] <;> decide
    · by_cases hdyn : e_type mb = ET_DYN
      · have hft : get_file_type mb = .DSO := by
          simp [get_file_type, hA, hrel, hdyn] <;> decide
        simp [hft, read_file, hA, hrel, hdyn, har, hthin] <;> decide
      · have hft : get_file_type mb = .UNKNOWN := by
          simp [get_file_type, hA, hrel, hdyn]
        simp [hft, read_file, hft, hrel, hdyn, har, hthin, htext]
  · have hA2 : ¬(20 ≤ mb.length ∧ mb.take 4 = elfMagic ∧ e_type mb = ET_REL) :=
      fun h => hA ⟨h.1, h.2.1⟩
    have hA3 : ¬(20 ≤ mb.length ∧ mb.take 4 = elfMagic ∧ e_type mb = ET_DYN) :=
      fun h => hA ⟨h.1, h.2.1⟩
    by_cases har : mb.take 8 = arMagic
    · have hft : get_file_type mb = .AR := by
        simp [get_file_type, hA, harlen har, har]
      have hthin : mb.take 8 ≠ thinMagic := by
        rw [har]; decide
      simp [hft, read_file, hA2, hA3, har, hthin] <;> decide
    · by_cases hthin : mb.take 8 = thinMagic
      · have hft : get_file_type mb = .THIN_AR := by
          simp [get_file_type, hA, har, hthinlen hthin, hthin] <;> decide
        simp [hft, read_file, hA2, hA3, har, hthin] <;> decide
      · by_cases htext : is_text_file mb = true
        · have hft : get_file_type mb = .TEXT := by
            simp [get_file_type, hA, har, hthin, htext]
          simp [hft, read_file, hA2, hA3, har, hthin, htext]
        · have hft : get_file_type mb = .UNKNOWN := by
            simp [get_file_type, hA, har, hthin, htext]
          simp [hft, read_file, hA2, hA3, har, hthin, htext]

/-- C6: get_section_rank computes
(not-alloc << 5) | (writable << 4) | (exec << 3) | (not-tls << 2) | nobits
(stated additively, which is equal because the fields occupy disjoint bits),
and sorting chunks by this key puts the seven section classes in the order
alloc-ro-data, alloc-ro-code, alloc-wr-tdata, tbss, data, bss, non-alloc:
whenever two section headers fall in different classes, the earlier class
has the strictly smaller rank. -/
theorem c6_section_rank_orders_classes :
    (∀ shdr : ElfShdr,
      get_section_rank shdr =
        32 * (!(shdr.sh_flags &&& SHF_ALLOC != 0)).toNat +
        16 * (shdr.sh_flags &&& SHF_WRITE != 0).toNat +
        8 * (shdr.sh_flags &&& SHF_EXECINSTR != 0).toNat +
        4 * (!(shdr.sh_flags &&& SHF_TLS != 0)).toNat +
        (shdr.sh_type == SHT_NOBITS).toNat) ∧
    (∀ (s t : ElfShdr) (i j : Fin 7), sectionClass s = some i →
      sectionClass t = some j → i < j →
      get_section_rank s < get_section_rank t) := by
  constructor
  · intro shdr
    exact rankBits_eq_add _ _ _ _ _
  · intro s t i j hi hj hij
    exact classBits_rank_strict_mono _ _ _ _ _ _ _ _ _ _ i j hi hj hij

/-- C6 witness: a read-only allocatable data section (class 0) ranks strictly
below a non-allocatable section (class 6) at concrete inputs. -/
theorem c6_section_rank_orders_classes_witness :
    get_section_rank { sh_flags := 2 } < get_section_rank { sh_flags := 0 } :=
  c6_section_rank_orders_classes.2 { sh_flags := 2 } { sh_flags := 0 } 0 6
    (by decide) (by decide) (by decide)

/-- C9: the loop guard of get_input_files is unreachable for non-empty
argument lists, so the function returns the empty vector whenever any
arguments are present. -/
theorem c9_get_input_files_returns_empty (args : List Nat) (h : args ≠ []) :
    get_input_files args = some [] := by
  simp [get_input_files, h]

/-- C9 witness: a concrete one-element argument list yields the empty
vector. -/
theorem c9_get_input_files_returns_empty_witness :
    get_input_files [5] = some [] :=
  c9_get_input_files_returns_empty [5] (by decide)

lemma split_loop_eq_splitChunks {unit : Nat} (hu : 1 ≤ unit) :
    ∀ (fuel : Nat) (span : List α) (vec : List (List α)),
      span.length < fuel →
      split_loop unit fuel span vec = some (vec ++ splitChunks unit span) := by
  intro fuel
  induction fuel with
  | zero => intro span vec h; omega
  | succ f ih =>
    intro span vec h
    rw [split_loop, splitChunks]
    by_cases hc : unit ≤ span.length
    · rw [if_pos hc, dif_pos ⟨hu, hc⟩, ih (span.drop unit) (vec ++ [span.take unit])
        (by simp only [List.length_drop]; omega)]
      simp
    · rw [if_neg hc, dif_neg (by tauto)]
      by_cases he : span.isEmpty
      · rw [if_pos he, if_pos he]
        simp
      · rw [if_neg he, if_neg he]

lemma splitChunks_len_le {unit : Nat} (hu : 1 ≤ unit) :
    ∀ (n : Nat) (span : List α), span.length ≤ n →
      ∀ c ∈ splitChunks unit span, 1 ≤ c.length ∧ c.length ≤ unit := by
  intro n
  induction n with
  | zero =>
    intro span hlen c hc
    rw [splitChunks] at hc
    rw [dif_neg (by omega)] at hc
    have : span.isEmpty := by
      rw [List.isEmpty_iff, ← List.length_eq_zero]
      omega
    rw [if_pos this] at hc
    simp at hc
  | succ m ih =>
    intro span hlen c hc
    rw [splitChunks] at hc
    by_cases h : 1 ≤ unit ∧ unit ≤ span.length
    · rw [dif_pos h] at hc
      rcases List.mem_cons.1 hc with rfl | hmem
      · constructor
        · rw [List.length_take]
          omega
        · rw [List.length_take]
          omega
      · exact ih (span.drop unit) (by simp only [List.length_drop]; omega) c hmem
    · rw [dif_neg h] at hc
      by_cases he : span.isEmpty
      · rw [if_pos he] at hc
        simp at hc
      · rw [if_neg he] at hc
        have hceq := List.mem_singleton.1 hc
        have hne : span.length ≠ 0 := by
          intro hx
          rw [List.length_eq_zero] at hx
          rw [hx] at he
          simp at he
        have hlt : span.length < unit := by
          by_contra hx
          exact h ⟨hu, by omega⟩
        rw [hceq]
        exact ⟨by omega, by omega⟩

lemma splitChunks_flatten {unit : Nat} (hu : 1 ≤ unit) :
    ∀ (n : Nat) (span : List α), span.length ≤ n →
      (splitChunks unit span).flatten = span := by
  intro n
  induction n with
  | zero =>
    intro span hlen
    rw [splitChunks]
    rw [dif_neg (by omega)]
    have : span.isEmpty := by
      rw [List.isEmpty_iff, ← List.length_eq_zero]
      omega
    rw [if_pos this, List.isEmpty_iff.1 this]
    rfl
  | succ m ih =>
    intro span hlen
    rw [splitChunks]
    by_cases h : 1 ≤ unit ∧ unit ≤ span.length
    · rw [dif_pos h, List.flatten_cons,
        ih (span.drop unit) (by simp only [List.length_drop]; omega)]
      exact List.take_append_drop unit span
    · rw [dif_neg h]
      by_cases he : span.isEmpty
      · rw [if_pos he, List.isEmpty_iff.1 he]
        rfl
      · rw [if_neg he]
        simp


lemma splitChunks_dropLast {unit : Nat} (hu : 1 ≤ unit) :
    ∀ (n : Nat) (span : List α), span.length ≤ n →
      ∀ c ∈ (splitChunks unit span).dropLast, c.length = unit := by
  intro n
  induction n with
  | zero =>
    intro span hlen c hc
    rw [splitChunks, dif_neg (by omega)] at hc
    have : span.isEmpty := by
      rw [List.isEmpty_iff, ← List.length_eq_zero]
      omega
    rw [if_pos this] at hc
    simp at hc
  | succ m ih =>
    intro span hlen c hc
    rw [splitChunks] at hc
    by_cases h : 1 ≤ unit ∧ unit ≤ span.length
    · rw [dif_pos h] at hc
      rcases hr : splitChunks unit (span.drop unit) with _ | ⟨d, ds⟩
      · rw [hr] at hc
        simp at hc
      · rw [hr, List.dropLast_cons₂] at hc
        rcases List.mem_cons.1 hc with rfl | hmem
        · rw [List.length_take]
          omega
        · refine ih (span.drop unit) (by simp only [List.length_drop]; omega) c ?_
          rw [hr]
          exact hmem
    · rw [dif_neg h] at hc
      by_cases he : span.isEmpty
      · rw [if_pos he] at hc
        simp at hc
      · rw [if_neg he] at hc
        simp at hc

lemma split_loop_zero_unit :
    ∀ (fuel : Nat) (span : List α) (vec : List (List α)),
      split_loop 0 fuel span vec = none := by
  intro fuel
  induction fuel with
  | zero => intro span vec; rfl
  | succ f ih =>
    intro span vec
    rw [split_loop, if_pos (Nat.zero_le _)]
    simp only [List.drop_zero, List.take_zero]
    exact ih span (vec ++ [[]])

/-- C10: split terminates exactly when unit is at least 1.  Under that
precondition (and the non-emptiness assertion) the produced spans
concatenate back to the input, every span has between 1 and unit elements,
and every span except possibly the last has exactly unit elements.  With
unit = 0 the loop makes no progress, so no amount of fuel makes it finish;
unit = 0 is exactly what bin_sections computes, as (nobjs + 127) / 128,
when the object list is empty.  The assertion rejects an empty input. -/
theorem c10_split_termination_and_shape :
    (∀ (input : List Nat) (unit : Nat), 1 ≤ unit → input ≠ [] →
      ∃ r : List (List Nat),
        (∀ fuel, input.length + 1 ≤ fuel → split fuel input unit = .ok (some r)) ∧
        r.flatten = input ∧
        (∀ c ∈ r, 1 ≤ c.length ∧ c.length ≤ unit) ∧
        (∀ c ∈ r.dropLast, c.length = unit)) ∧
    (∀ input : List Nat, input ≠ [] → ∀ fuel, split fuel input 0 = .ok none) ∧
    (∀ fuel unit : Nat, split (α := Nat) fuel [] unit = .error ()) ∧
    (∀ nobjs : Nat, bin_sections_unit nobjs = 0 ↔ nobjs = 0) := by
  refine ⟨?_, ?_, ?_, ?_⟩
  · intro input unit hu hne
    refine ⟨splitChunks unit input, ?_, ?_, ?_, ?_⟩
    · intro fuel hfuel
      rw [split, if_neg (by simpa [List.isEmpty_iff] using hne),
        split_loop_eq_splitChunks hu fuel input [] (by omega)]
      simp
    · exact splitChunks_flatten hu input.length input le_rfl
    · exact splitChunks_len_le hu input.length input le_rfl
    · exact splitChunks_dropLast hu input.length input le_rfl
  · intro input hne fuel
    rw [split, if_neg (by simpa [List.isEmpty_iff] using hne), split_loop_zero_unit]
  · intro fuel unit
    rfl
  · intro nobjs
    unfold bin_sections_unit
    omega

/-- C10 witness: at input [3, 4, 5] with unit 2 the split terminates with
the stated shape, and at the same input with unit 0 it runs out of any
amount of fuel. -/
theorem c10_split_termination_and_shape_witness :
    (∃ r : List (List Nat),
        (∀ fuel, [3, 4, 5].length + 1 ≤ fuel → split fuel [3, 4, 5] 2 = .ok (some r)) ∧
        r.flatten = [3, 4, 5] ∧
        (∀ c ∈ r, 1 ≤ c.length ∧ c.length ≤ 2) ∧
        (∀ c ∈ r.dropLast, c.length = 2)) ∧
    (∀ fuel, split fuel [3, 4, 5] 0 = .ok none) :=
  ⟨c10_split_termination_and_shape.1 [3, 4, 5] 2 (by decide) (by decide),
   c10_split_termination_and_shape.2.1 [3, 4, 5] (by decide)⟩


lemma prio_loop_counter (pred : PrioFile → Bool) :
    ∀ (s : List (PrioFile × Option Nat)) (p : Nat),
      (prio_loop pred s p).2 = p + s.countP (fun x => pred x.1) := by
  intro s
  induction s with
  | nil => intro p; simp [prio_loop]
  | cons a rest ih =>
    intro p
    rcases a with ⟨f, pr⟩
    by_cases hp : pred f
    · simp [prio_loop, hp, ih, List.countP_cons]
      omega
    · simp [prio_loop, hp, ih, List.countP_cons]

lemma prio_loop_fst (pred : PrioFile → Bool) :
    ∀ (s : List (PrioFile × Option Nat)) (p : Nat),
      (prio_loop pred s p).1.map Prod.fst = s.map Prod.fst := by
  intro s
  induction s with
  | nil => intro p; simp [prio_loop]
  | cons a rest ih =>
    intro p
    rcases a with ⟨f, pr⟩
    by_cases hp : pred f
    · simp [prio_loop, hp, ih]
    · simp [prio_loop, hp, ih]

lemma prio_loop_length (pred : PrioFile → Bool) (s : List (PrioFile × Option Nat))
    (p : Nat) : (prio_loop pred s p).1.length = s.length := by
  have h := congrArg List.length (prio_loop_fst pred s p)
  simpa using h

lemma prio_loop_getD (pred : PrioFile → Bool) :
    ∀ (s : List (PrioFile × Option Nat)) (p i : Nat), i < s.length →
      (prio_loop pred s p).1.getD i (⟨false⟩, none) =
        (if pred (s.getD i (⟨false⟩, none)).1
         then ((s.getD i (⟨false⟩, none)).1,
               some (p + (s.take i).countP (fun x => pred x.1)))
         else s.getD i (⟨false⟩, none)) := by
  intro s
  induction s with
  | nil => intro p i hi; simp at hi
  | cons a rest ih =>
    intro p i hi
    rcases a with ⟨f, pr⟩
    cases i with
    | zero =>
      by_cases hp : pred f
      · simp [prio_loop, hp]
      · simp [prio_loop, hp]
    | succ n =>
      have hn : n < rest.length := by
        rw [List.length_cons] at hi
        omega
      have hcnt : (((f, pr) :: rest).take (n + 1)).countP (fun x => pred x.1) =
          (rest.take n).countP (fun x => pred x.1) + (if pred f then 1 else 0) := by
        rw [List.take_succ_cons, List.countP_cons]
      by_cases hp : pred f
      · have hstep : (prio_loop pred ((f, pr) :: rest) p).1 =
            (f, some p) :: (prio_loop pred rest (p + 1)).1 := by
          simp [prio_loop, hp]
        rw [hstep, List.getD_cons_succ, ih (p + 1) n hn, List.getD_cons_succ, hcnt]
        by_cases hq : pred (rest.getD n (⟨false⟩, none)).1
        · rw [if_pos hq, if_pos hq]
          simp only [hp, if_true, Prod.mk.injEq, Option.some.injEq]
          exact ⟨by trivial, by omega⟩
        · rw [if_neg hq, if_neg hq]
      · have hstep : (prio_loop pred ((f, pr) :: rest) p).1 =
            (f, pr) :: (prio_loop pred rest p).1 := by
          simp [prio_loop, hp]
        rw [hstep, List.getD_cons_succ, ih p n hn, List.getD_cons_succ, hcnt]
        by_cases hq : pred (rest.getD n (⟨false⟩, none)).1
        · rw [if_pos hq, if_pos hq]
          simp only [hp, Bool.false_eq_true, if_false, Prod.mk.injEq, Option.some.injEq]
          exact ⟨by trivial, by omega⟩
        · rw [if_neg hq, if_neg hq]

lemma getD_map_pair :
    ∀ (l : List PrioFile) (i : Nat),
      (l.map (fun f => (f, (none : Option Nat)))).getD i (⟨false⟩, none) =
        (l.getD i ⟨false⟩, none) := by
  intro l
  induction l with
  | nil => intro i; cases i <;> simp
  | cons a rest ih =>
    intro i
    cases i with
    | zero => simp
    | succ n =>
      simp only [List.map_cons, List.getD_cons_succ]
      exact ih n

lemma getD_map_snd :
    ∀ (l : List (PrioFile × Option Nat)) (i : Nat),
      (l.map (fun x => x.2)).getD i none = (l.getD i (⟨false⟩, none)).2 := by
  intro l
  induction l with
  | nil => intro i; cases i <;> simp
  | cons a rest ih =>
    intro i
    cases i with
    | zero => simp
    | succ n =>
      simp only [List.map_cons, List.getD_cons_succ]
      exact ih n

lemma countP_bool_split (l : List PrioFile) (p : PrioFile → Bool) :
    l.countP p + l.countP (fun a => !(p a)) = l.length := by
  induction l with
  | nil => simp
  | cons a rest ih =>
    rw [List.countP_cons, List.countP_cons, List.length_cons]
    by_cases hp : p a
    · simp [hp]
      omega
    · simp [hp]
      omega

lemma countP_take_lt (p : PrioFile → Bool) :
    ∀ (l : List PrioFile) (j : Nat), j < l.length → p (l.getD j ⟨false⟩) = true →
      (l.take j).countP p < l.countP p := by
  intro l
  induction l with
  | nil => intro j hj _; simp at hj
  | cons a rest ih =>
    intro j hj hp
    cases j with
    | zero =>
      simp only [List.getD_cons_zero] at hp
      simp [List.countP_cons, hp]
    | succ n =>
      have hn : n < rest.length := by
        simp only [List.length_cons] at hj
        omega
      simp only [List.getD_cons_succ] at hp
      have := ih n hn hp
      rw [List.take_succ_cons, List.countP_cons, List.countP_cons]
      omega


lemma map_fst_pair (objs : List PrioFile) :
    (objs.map (fun f => (f, (none : Option Nat)))).map Prod.fst = objs := by
  rw [List.map_map]
  exact List.map_congr_left (fun a _ => rfl) |>.trans (List.map_id objs)

lemma countP_fst_map (l : List (PrioFile × Option Nat)) (q : PrioFile → Bool) :
    l.countP (fun x => q x.1) = (l.map Prod.fst).countP q := by
  rw [List.countP_map]
  rfl

lemma set_file_priorities_obj_getD (objs : List PrioFile) (ndsos : Nat) (i : Nat)
    (hi : i < objs.length) :
    (set_file_priorities objs ndsos).1.getD i none =
      (if (objs.getD i ⟨false⟩).is_in_archive
       then some (2 + objs.countP (fun f => !f.is_in_archive) +
         (objs.take i).countP (fun f => f.is_in_archive))
       else some (2 + (objs.take i).countP (fun f => !f.is_in_archive))) := by
  unfold set_file_priorities
  simp only
  rw [getD_map_snd]
  have hs0len : (objs.map (fun f => (f, (none : Option Nat)))).length = objs.length := by
    simp
  have hs1len :
      (prio_loop (fun f => !f.is_in_archive)
        (objs.map (fun f => (f, (none : Option Nat)))) 2).1.length = objs.length := by
    rw [prio_loop_length, hs0len]
  rw [prio_loop_getD _ _ _ i (by rw [hs1len]; exact hi)]
  rw [prio_loop_getD _ _ _ i (by rw [hs0len]; exact hi)]
  rw [getD_map_pair]
  have htake0 : ((objs.map (fun f => (f, (none : Option Nat)))).take i).countP
      (fun x => !x.1.is_in_archive) = (objs.take i).countP (fun f => !f.is_in_archive) := by
    rw [← List.map_take, List.countP_map]
    rfl
  have hcnt0 : (objs.map (fun f => (f, (none : Option Nat)))).countP
      (fun x => !x.1.is_in_archive) = objs.countP (fun f => !f.is_in_archive) := by
    rw [List.countP_map]
    rfl
  have hcounter : (prio_loop (fun f => !f.is_in_archive)
      (objs.map (fun f => (f, (none : Option Nat)))) 2).2 =
      2 + objs.countP (fun f => !f.is_in_archive) := by
    rw [prio_loop_counter, hcnt0]
  have htake1 : ((prio_loop (fun f => !f.is_in_archive)
      (objs.map (fun f => (f, (none : Option Nat)))) 2).1.take i).countP
      (fun x => x.1.is_in_archive) = (objs.take i).countP (fun f => f.is_in_archive) := by
    rw [countP_fst_map, List.map_take, prio_loop_fst, map_fst_pair]
  by_cases harch : (objs.getD i ⟨false⟩).is_in_archive
  · simp only [harch, Bool.not_true, Bool.false_eq_true, if_false, if_true,
      hcounter, htake1]
  · simp only [harch, Bool.not_false, Bool.false_eq_true, if_false, if_true,
      htake0]


lemma set_file_priorities_counter (objs : List PrioFile) (ndsos : Nat) :
    (set_file_priorities objs ndsos).2.2 = 2 + objs.length + ndsos := by
  unfold set_file_priorities
  simp only
  rw [prio_loop_counter, prio_loop_counter]
  rw [countP_fst_map, prio_loop_fst, map_fst_pair]
  have hcnt0 : (objs.map (fun f => (f, (none : Option Nat)))).countP
      (fun x => !x.1.is_in_archive) = objs.countP (fun f => !f.is_in_archive) := by
    rw [List.countP_map]
    rfl
  rw [hcnt0]
  have hsplit := countP_bool_split objs (fun f => f.is_in_archive)
  have heta : objs.countP PrioFile.is_in_archive =
      objs.countP (fun f => f.is_in_archive) := rfl
  omega

lemma set_file_priorities_dso_getD (objs : List PrioFile) (ndsos : Nat) (m : Nat)
    (hm : m < ndsos) :
    (set_file_priorities objs ndsos).2.1.getD m 0 = 2 + objs.length + m := by
  have hval : (set_file_priorities objs ndsos).2.1.getD m 0 =
      (set_file_priorities objs ndsos).2.2 - ndsos + m := by
    unfold set_file_priorities
    simp only
    rw [List.getD_eq_getElem _ _ (by simpa using hm)]
    simp only [List.getElem_map, List.getElem_range]
    omega
  rw [hval, set_file_priorities_counter]
  omega


/-- C8: file priorities are assigned consecutively starting from 2
(priority 1 being reserved for the internal file): first every non-archive
object file in list order (the i-th such file gets 2 plus the number of
earlier non-archive files), then every archive-member object file in list
order, then every shared file in list order (the m-th shared file gets
2 + number of object files + m); consequently every non-archive object file
has a strictly smaller priority than every archive-member object file,
and every object file has a strictly smaller priority than every shared
file. -/
theorem c8_file_priority_order (objs : List PrioFile) (ndsos : Nat) :
    (∀ i, i < objs.length → (objs.getD i ⟨false⟩).is_in_archive = false →
      (set_file_priorities objs ndsos).1.getD i none =
        some (2 + (objs.take i).countP (fun f => !f.is_in_archive))) ∧
    (∀ i, i < objs.length → (objs.getD i ⟨false⟩).is_in_archive = true →
      (set_file_priorities objs ndsos).1.getD i none =
        some (2 + objs.countP (fun f => !f.is_in_archive) +
          (objs.take i).countP (fun f => f.is_in_archive))) ∧
    (∀ m, m < ndsos →
      (set_file_priorities objs ndsos).2.1.getD m 0 = 2 + objs.length + m) ∧
    (∀ i j pi pj, i < objs.length → j < objs.length →
      (objs.getD i ⟨false⟩).is_in_archive = false →
      (objs.getD j ⟨false⟩).is_in_archive = true →
      (set_file_priorities objs ndsos).1.getD i none = some pi →
      (set_file_priorities objs ndsos).1.getD j none = some pj → pi < pj) ∧
    (∀ j m pj, j < objs.length → m < ndsos →
      (set_file_priorities objs ndsos).1.getD j none = some pj →
      pj < (set_file_priorities objs ndsos).2.1.getD m 0) := by
  refine ⟨?_, ?_, ?_, ?_, ?_⟩
  · intro i hi harch
    rw [set_file_priorities_obj_getD objs ndsos i hi, harch]
    simp
  · intro i hi harch
    rw [set_file_priorities_obj_getD objs ndsos i hi, harch]
    simp
  · intro m hm
    exact set_file_priorities_dso_getD objs ndsos m hm
  · intro i j pi pj hi hj hiarch hjarch hpi hpj
    rw [set_file_priorities_obj_getD objs ndsos i hi, hiarch] at hpi
    rw [set_file_priorities_obj_getD objs ndsos j hj, hjarch] at hpj
    simp only [Bool.false_eq_true, if_false, if_true, Option.some.injEq] at hpi hpj
    have hlt : (objs.take i).countP (fun f => !f.is_in_archive) <
        objs.countP (fun f => !f.is_in_archive) :=
      countP_take_lt (fun f => !f.is_in_archive) objs i hi (by simp only [hiarch, Bool.not_false])
    omega
  · intro j m pj hj hm hpj
    rw [set_file_priorities_dso_getD objs ndsos m hm]
    rw [set_file_priorities_obj_getD objs ndsos j hj] at hpj
    have hsplit := countP_bool_split objs (fun f => f.is_in_archive)
    by_cases hjarch : (objs.getD j ⟨false⟩).is_in_archive
    · rw [if_pos hjarch] at hpj
      simp only [Option.some.injEq] at hpj
      have hlt : (objs.take j).countP (fun f => f.is_in_archive) <
          objs.countP (fun f => f.is_in_archive) :=
        countP_take_lt (fun f => f.is_in_archive) objs j hj hjarch
      omega
    · rw [if_neg hjarch] at hpj
      simp only [Option.some.injEq] at hpj
      have hle : (objs.take j).countP (fun f => !f.is_in_archive) <
          objs.countP (fun f => !f.is_in_archive) :=
        countP_take_lt (fun f => !f.is_in_archive) objs j hj
          (by rw [Bool.not_eq_true] at hjarch; simp only [hjarch, Bool.not_false])
      omega

/-- C8 witness: with objects [archive, non-archive] and one shared file,
the non-archive file gets priority 2, the archive member gets 3, and the
shared file gets 4. -/
theorem c8_file_priority_order_witness :
    (set_file_priorities [⟨true⟩, ⟨false⟩] 1).1.getD 1 none = some 2 ∧
    (set_file_priorities [⟨true⟩, ⟨false⟩] 1).1.getD 0 none = some 3 ∧
    (set_file_priorities [⟨true⟩, ⟨false⟩] 1).2.1.getD 0 0 = 4 ∧
    2 < 3 :=
  ⟨(c8_file_priority_order [⟨true⟩, ⟨false⟩] 1).1 1 (by decide) (by decide),
   by
     have h := (c8_file_priority_order [⟨true⟩, ⟨false⟩] 1).2.1 0 (by decide) (by decide)
     simpa using h,
   by
     have h := (c8_file_priority_order [⟨true⟩, ⟨false⟩] 1).2.2.1 0 (by decide)
     simpa using h,
   by
     have h2 := (c8_file_priority_order [⟨true⟩, ⟨false⟩] 1).1 1 (by decide) (by decide)
     have h3 := (c8_file_priority_order [⟨true⟩, ⟨false⟩] 1).2.1 0 (by decide) (by decide)
     exact (c8_file_priority_order [⟨true⟩, ⟨false⟩] 1).2.2.2.1 1 0 2 3 (by decide)
       (by decide) (by decide) (by decide) (by simpa using h2) (by simpa using h3)⟩


lemma clear_padding_loop_eq :
    ∀ (rest : List OutputChunk) (prev : OutputChunk) (filesize : Nat)
      (buf : Nat → Nat) (p : Nat),
      clear_padding_loop prev rest filesize buf p =
        if ∃ g ∈ gaps_loop prev rest filesize, g.1 ≤ p ∧ p < g.2 then 0
        else buf p := by
  intro rest
  induction rest with
  | nil =>
    intro prev filesize buf p
    simp only [clear_padding_loop, gaps_loop, zeroRange]
    by_cases h : logical_end prev ≤ p ∧ p < filesize
    · rw [if_pos h, if_pos ⟨(logical_end prev, filesize), List.mem_singleton.2 rfl, h⟩]
    · rw [if_neg h, if_neg ?_]
      rintro ⟨g, hm, hg⟩
      rw [List.mem_singleton] at hm
      subst hm
      exact h hg
  | cons c rest ih =>
    intro prev filesize buf p
    simp only [clear_padding_loop]
    rw [ih c filesize _ p]
    simp only [gaps_loop, zeroRange]
    by_cases h1 : ∃ g ∈ gaps_loop c rest filesize, g.1 ≤ p ∧ p < g.2
    · rcases h1 with ⟨g, hmem, hg⟩
      rw [if_pos ⟨g, hmem, hg⟩, if_pos ⟨g, List.mem_cons_of_mem _ hmem, hg⟩]
    · rw [if_neg h1]
      by_cases h2 : logical_end prev ≤ p ∧ p < c.shdr.sh_offset
      · rw [if_pos h2,
          if_pos ⟨(logical_end prev, c.shdr.sh_offset), List.mem_cons_self _ _, h2⟩]
      · rw [if_neg h2, if_neg ?_]
        rintro ⟨g, hor, hg⟩
        rcases List.mem_cons.1 hor with rfl | hmem
        · exact h2 hg
        · exact h1 ⟨g, hmem, hg⟩

lemma gaps_loop_eq :
    ∀ (rest : List OutputChunk) (prev : OutputChunk) (filesize : Nat),
      gaps_loop prev rest filesize =
        ((prev :: rest).zip rest).map
          (fun x => (logical_end x.1, x.2.shdr.sh_offset)) ++
        [(logical_end ((prev :: rest).getLast (by simp)), filesize)] := by
  intro rest
  induction rest with
  | nil =>
    intro prev filesize
    simp [gaps_loop]
  | cons c rest ih =>
    intro prev filesize
    have h1 : gaps_loop prev (c :: rest) filesize =
        (logical_end prev, c.shdr.sh_offset) :: gaps_loop c rest filesize := rfl
    rw [h1, ih c filesize, List.zip_cons_cons, List.map_cons, List.cons_append]
    congr 2
    try rw [List.getLast_cons (List.cons_ne_nil c rest)]


/-- C3: after all copy_buf calls, clear_padding zeroes exactly the bytes
between each chunk's logical end (sh_offset + sh_size, or sh_offset alone
for SHT_NOBITS chunks) and the next chunk's sh_offset, plus the bytes from
the last chunk's logical end to the file size; every other byte keeps the
value the copy phase produced.  When a filler is configured (filler != -1)
the whole buffer is pre-filled with the filler byte before any chunk copy,
and after clear_padding every gap byte is zero regardless of the filler. -/
theorem c3_clear_padding_zeroes_gaps (filler : Int)
    (copy : (Nat → Nat) → Nat → Nat) (chunks : List OutputChunk)
    (filesize : Nat) (hne : chunks ≠ []) :
    (∀ p, (∃ g ∈ padding_gaps chunks filesize, g.1 ≤ p ∧ p < g.2) →
      output_image filler copy chunks filesize p = 0) ∧
    (∀ p, (∀ g ∈ padding_gaps chunks filesize, ¬(g.1 ≤ p ∧ p < g.2)) →
      output_image filler copy chunks filesize p =
        copy (OutputFile_open_buf filler filesize) p) ∧
    (padding_gaps chunks filesize =
      (chunks.zip (chunks.drop 1)).map
        (fun x => (logical_end x.1, x.2.shdr.sh_offset)) ++
      [(logical_end (chunks.getLast hne), filesize)]) ∧
    (filler ≠ -1 → ∀ p, p < filesize →
      OutputFile_open_buf filler filesize p = filler.toNat % 256) := by
  rcases chunks with _ | ⟨c, rest⟩
  · exact absurd rfl hne
  refine ⟨?_, ?_, ?_, ?_⟩
  · intro p hp
    have hp2 : ∃ g ∈ gaps_loop c rest filesize, g.1 ≤ p ∧ p < g.2 := hp
    simp only [output_image, clear_padding]
    rw [clear_padding_loop_eq rest c filesize _ p]
    rw [if_pos hp2]
  · intro p hp
    have hp2 : ∀ g ∈ gaps_loop c rest filesize, ¬(g.1 ≤ p ∧ p < g.2) := hp
    simp only [output_image, clear_padding]
    rw [clear_padding_loop_eq rest c filesize _ p]
    rw [if_neg ?_]
    rintro ⟨g, hmem, hg⟩
    exact hp2 g hmem hg
  · simp only [padding_gaps, List.drop_one, List.tail_cons]
    rw [gaps_loop_eq rest c filesize]
  · intro hf p hp
    simp only [OutputFile_open_buf, if_pos hf, if_pos hp]

/-- C3 witness: two concrete chunks with a gap in between and a trailing
gap; byte 3 lies in the inter-chunk gap and is zero, byte 5 lies inside the
second chunk and keeps the copied value, and with filler 0xaa the open
buffer is pre-filled with 0xaa. -/
theorem c3_clear_padding_zeroes_gaps_witness :
    output_image 0xaa (fun b => b)
      [{ shdr := { sh_offset := 0, sh_size := 2, sh_type := 1 } },
       { shdr := { sh_offset := 4, sh_size := 2, sh_type := 1 } }] 8 3 = 0 ∧
    output_image 0xaa (fun b => b)
      [{ shdr := { sh_offset := 0, sh_size := 2, sh_type := 1 } },
       { shdr := { sh_offset := 4, sh_size := 2, sh_type := 1 } }] 8 5 =
      OutputFile_open_buf 0xaa 8 5 ∧
    OutputFile_open_buf 0xaa 8 5 = 0xaa := by
  have h := c3_clear_padding_zeroes_gaps 0xaa (fun b => b)
    [{ shdr := { sh_offset := 0, sh_size := 2, sh_type := 1 } },
     { shdr := { sh_offset := 4, sh_size := 2, sh_type := 1 } }] 8 (by decide)
  refine ⟨h.1 3 (by decide), h.2.1 5 (by decide), ?_⟩
  have h4 := h.2.2.2 (by decide) 5 (by decide)
  rw [h4]
  decide


lemma align_to_le (x a : Nat) : x ≤ align_to x a := by
  unfold align_to
  by_cases ha : a = 0
  · rw [if_pos ha]
  · rw [if_neg ha]
    have ha2 : 0 < a := Nat.pos_of_ne_zero ha
    have hdm := Nat.div_add_mod (x + a - 1) a
    have hm := Nat.mod_lt (x + a - 1) ha2
    rw [Nat.mul_comm]
    omega

lemma align_to_dvd (x a : Nat) (ha : 0 < a) : a ∣ align_to x a := by
  unfold align_to
  rw [if_neg (by omega)]
  exact Dvd.dvd.mul_left (dvd_refl a) _

lemma align_to_eq_mod (x a : Nat) (ha : 0 < a) :
    align_to x a = x + (a - x % a) % a := by
  unfold align_to
  rw [if_neg (by omega)]
  by_cases hr : x % a = 0
  · obtain ⟨m, hm⟩ := Nat.dvd_of_mod_eq_zero hr
    subst hm
    rw [hr]
    simp only [Nat.sub_zero, Nat.mod_self, Nat.add_zero]
    have h2 : (a * m + a - 1) / a = m := by
      have h3 : a * m + a - 1 = a * m + (a - 1) := by omega
      rw [h3, Nat.mul_add_div ha, Nat.div_eq_of_lt (by omega), Nat.add_zero]
    rw [h2]
    ring
  · have hma : x % a < a := Nat.mod_lt _ ha
    have hmod : (a - x % a) % a = a - x % a := Nat.mod_eq_of_lt (by omega)
    rw [hmod]
    have hq := Nat.div_add_mod x a
    have hx : x = a * (x / a) + x % a := by omega
    have hr1 : 1 ≤ x % a := by omega
    have h1 : x + a - 1 = a * (x / a + 1) + (x % a - 1) := by
      have h2 : a * (x / a + 1) = a * (x / a) + a := by ring
      omega
    rw [h1, Nat.mul_add_div ha, Nat.div_eq_of_lt (show x % a - 1 < a by omega),
      Nat.add_zero]
    have h3 : (x / a + 1) * a = a * (x / a) + a := by ring
    omega

lemma align_to_mod_congr {a : Nat} (hdvd : a ∣ PAGE_SIZE) {x y : Nat}
    (h : x % PAGE_SIZE = y % PAGE_SIZE) :
    align_to x a % PAGE_SIZE = align_to y a % PAGE_SIZE := by
  have ha : 0 < a := by
    rcases Nat.eq_zero_or_pos a with h0 | h0
    · subst h0
      have := Nat.eq_zero_of_zero_dvd hdvd
      simp [PAGE_SIZE] at this
    · exact h0
  rw [align_to_eq_mod x a ha, align_to_eq_mod y a ha]
  have hxy : x % a = y % a := by
    rw [← Nat.mod_mod_of_dvd x hdvd, ← Nat.mod_mod_of_dvd y hdvd, h]
  rw [hxy, Nat.add_mod, Nat.add_mod y, h]

lemma osec_f1_ge (f v1 : Nat) : f ≤ osec_f1 f v1 := by
  unfold osec_f1
  split_ifs with h1 h2
  · omega
  · have := align_to_le f PAGE_SIZE
    omega
  · exact le_refl f

lemma osec_f1_mod (f v1 : Nat) : osec_f1 f v1 % PAGE_SIZE = v1 % PAGE_SIZE := by
  unfold osec_f1
  split_ifs with h1 h2
  · simp only [PAGE_SIZE] at *
    omega
  · obtain ⟨k, hk⟩ := align_to_dvd f PAGE_SIZE (by simp [PAGE_SIZE])
    rw [hk]
    simp only [PAGE_SIZE] at *
    omega
  · omega

lemma offset_le_logical_end (c : OutputChunk) : c.shdr.sh_offset ≤ logical_end c := by
  unfold logical_end
  split <;> omega


lemma osec_step_fields (f v : Nat) (c : OutputChunk) :
    (osec_step f v c).1.shdr.sh_flags = c.shdr.sh_flags ∧
    (osec_step f v c).1.shdr.sh_type = c.shdr.sh_type ∧
    (osec_step f v c).1.shdr.sh_size = c.shdr.sh_size ∧
    (osec_step f v c).1.shdr.sh_addralign = c.shdr.sh_addralign := by
  simp [osec_step]

lemma osec_step_offset (f v : Nat) (c : OutputChunk) :
    (osec_step f v c).1.shdr.sh_offset =
      align_to (osec_f1 f (osec_v1 v c)) c.shdr.sh_addralign := by
  simp [osec_step]

lemma osec_step_addr_alloc (f v : Nat) (c : OutputChunk)
    (h : c.shdr.sh_flags &&& SHF_ALLOC ≠ 0) :
    (osec_step f v c).1.shdr.sh_addr =
      align_to (osec_v1 v c) c.shdr.sh_addralign := by
  simp [osec_step, h]

lemma osec_step_f3 (f v : Nat) (c : OutputChunk) :
    (osec_step f v c).2.1 = logical_end (osec_step f v c).1 := by
  simp only [osec_step, logical_end]

lemma osec_v1_ge (v : Nat) (c : OutputChunk) : v ≤ osec_v1 v c := by
  unfold osec_v1
  split
  · exact align_to_le v PAGE_SIZE
  · exact le_refl v

lemma osec_step_offset_ge (f v : Nat) (c : OutputChunk) :
    f ≤ (osec_step f v c).1.shdr.sh_offset := by
  rw [osec_step_offset]
  exact le_trans (osec_f1_ge f (osec_v1 v c))
    (align_to_le (osec_f1 f (osec_v1 v c)) c.shdr.sh_addralign)

lemma osec_step_f3_ge (f v : Nat) (c : OutputChunk) : f ≤ (osec_step f v c).2.1 := by
  rw [osec_step_f3]
  exact le_trans (osec_step_offset_ge f v c) (offset_le_logical_end _)

lemma osec_step_v3_ge (f v : Nat) (c : OutputChunk) : v ≤ (osec_step f v c).2.2 := by
  have hv1 := osec_v1_ge v c
  have hv2 := align_to_le (osec_v1 v c) c.shdr.sh_addralign
  simp only [osec_step]
  split <;> omega

lemma osec_step_addr_ge (f v : Nat) (c : OutputChunk)
    (h : c.shdr.sh_flags &&& SHF_ALLOC ≠ 0) :
    v ≤ (osec_step f v c).1.shdr.sh_addr := by
  rw [osec_step_addr_alloc f v c h]
  exact le_trans (osec_v1_ge v c) (align_to_le (osec_v1 v c) c.shdr.sh_addralign)

lemma osec_step_adv_addr (f v : Nat) (c : OutputChunk)
    (h : c.shdr.sh_flags &&& SHF_ALLOC ≠ 0) :
    (osec_step f v c).1.shdr.sh_addr +
      (if (osec_step f v c).1.shdr.sh_type = SHT_NOBITS ∧
          (osec_step f v c).1.shdr.sh_flags &&& SHF_TLS ≠ 0 then 0
       else (osec_step f v c).1.shdr.sh_size) ≤ (osec_step f v c).2.2 := by
  obtain ⟨hf, ht, hs, _⟩ := osec_step_fields f v c
  rw [osec_step_addr_alloc f v c h, ht, hf, hs]
  simp only [osec_step]
  split <;> omega

lemma osec_step_mod (f v : Nat) (c : OutputChunk)
    (h : c.shdr.sh_flags &&& SHF_ALLOC ≠ 0)
    (hdvd : c.shdr.sh_addralign ∣ PAGE_SIZE) :
    (osec_step f v c).1.shdr.sh_addr % PAGE_SIZE =
      (osec_step f v c).1.shdr.sh_offset % PAGE_SIZE := by
  rw [osec_step_addr_alloc f v c h, osec_step_offset]
  exact align_to_mod_congr hdvd (osec_f1_mod f (osec_v1 v c)).symm


lemma osec_loop_spec :
    ∀ (chunks : List OutputChunk) (f v : Nat),
      (∀ c ∈ chunks, c.shdr.sh_addralign ∣ PAGE_SIZE) →
      (∀ x ∈ (set_osec_offsets_loop chunks f v).1, f ≤ x.shdr.sh_offset) ∧
      (∀ x ∈ (set_osec_offsets_loop chunks f v).1,
        x.shdr.sh_flags &&& SHF_ALLOC ≠ 0 → v ≤ x.shdr.sh_addr) ∧
      List.Chain' advOff (set_osec_offsets_loop chunks f v).1 ∧
      List.Chain' advAddr ((set_osec_offsets_loop chunks f v).1.filter
        (fun x => x.shdr.sh_flags &&& SHF_ALLOC != 0)) ∧
      (∀ x ∈ (set_osec_offsets_loop chunks f v).1,
        x.shdr.sh_flags &&& SHF_ALLOC ≠ 0 →
        x.shdr.sh_addr % PAGE_SIZE = x.shdr.sh_offset % PAGE_SIZE) ∧
      f ≤ (set_osec_offsets_loop chunks f v).2 ∧
      ((set_osec_offsets_loop chunks f v).1 = [] →
        (set_osec_offsets_loop chunks f v).2 = f) ∧
      ((set_osec_offsets_loop chunks f v).1 ≠ [] →
        (set_osec_offsets_loop chunks f v).2 =
          logical_end ((set_osec_offsets_loop chunks f v).1.getLastD ⟨{}, false⟩)) := by
  intro chunks
  induction chunks with
  | nil =>
    intro f v _
    refine ⟨by simp [set_osec_offsets_loop], by simp [set_osec_offsets_loop],
      by simp [set_osec_offsets_loop], by simp [set_osec_offsets_loop],
      by simp [set_osec_offsets_loop], le_refl f, fun _ => rfl, ?_⟩
    intro h
    exact absurd rfl h
  | cons c rest ih =>
    intro f v hdvd
    have hdc : c.shdr.sh_addralign ∣ PAGE_SIZE := hdvd c (List.mem_cons_self c rest)
    have hdr : ∀ x ∈ rest, x.shdr.sh_addralign ∣ PAGE_SIZE :=
      fun x hx => hdvd x (List.mem_cons_of_mem c hx)
    have hunfold : set_osec_offsets_loop (c :: rest) f v =
        ((osec_step f v c).1 ::
          (set_osec_offsets_loop rest (osec_step f v c).2.1 (osec_step f v c).2.2).1,
         (set_osec_offsets_loop rest (osec_step f v c).2.1 (osec_step f v c).2.2).2) := by
      simp [set_osec_offsets_loop]
    rw [hunfold]
    dsimp only
    obtain ⟨ih1, ih2, ih3, ih4, ih5, ih6, ih7, ih8⟩ :=
      ih (osec_step f v c).2.1 (osec_step f v c).2.2 hdr
    have hsf : (osec_step f v c).1.shdr.sh_flags = c.shdr.sh_flags :=
      (osec_step_fields f v c).1
    have hf3ge := osec_step_f3_ge f v c
    have hv3ge := osec_step_v3_ge f v c
    refine ⟨?_, ?_, ?_, ?_, ?_, ?_, ?_, ?_⟩
    · intro x hx
      rcases List.mem_cons.1 hx with rfl | hx2
      · exact osec_step_offset_ge f v c
      · exact le_trans hf3ge (ih1 x hx2)
    · intro x hx hal
      rcases List.mem_cons.1 hx with rfl | hx2
      · rw [hsf] at hal
        exact osec_step_addr_ge f v c hal
      · exact le_trans hv3ge (ih2 x hx2 hal)
    · rw [List.chain'_cons']
      refine ⟨?_, ih3⟩
      intro y hy
      have hyR := List.mem_of_mem_head? hy
      unfold advOff
      rw [← osec_step_f3 f v c]
      exact ih1 y hyR
    · by_cases hal : ((osec_step f v c).1.shdr.sh_flags &&& SHF_ALLOC != 0) = true
      · rw [List.filter_cons, if_pos hal]
        rw [List.chain'_cons']
        refine ⟨?_, ih4⟩
        intro y hy
        have hyf := List.mem_of_mem_head? hy
        have hyR := (List.mem_filter.1 hyf).1
        have hyal : y.shdr.sh_flags &&& SHF_ALLOC ≠ 0 := by
          have h2 := (List.mem_filter.1 hyf).2
          simpa using h2
        have halp : c.shdr.sh_flags &&& SHF_ALLOC ≠ 0 := by
          rw [← hsf]
          simpa using hal
        have h1 := osec_step_adv_addr f v c halp
        have h2 := ih2 y hyR hyal
        unfold advAddr
        omega
      · rw [List.filter_cons, if_neg hal]
        exact ih4
    · intro x hx hal
      rcases List.mem_cons.1 hx with rfl | hx2
      · rw [hsf] at hal
        exact osec_step_mod f v c hal hdc
      · exact ih5 x hx2 hal
    · exact le_trans hf3ge ih6
    · intro h
      simp at h
    · intro _h
      rw [List.getLastD_cons]
      rcases hR1 : (set_osec_offsets_loop rest (osec_step f v c).2.1
          (osec_step f v c).2.2).1 with _ | ⟨y, ys⟩
      · rw [ih7 hR1]
        exact osec_step_f3 f v c
      · have hne : (set_osec_offsets_loop rest (osec_step f v c).2.1
            (osec_step f v c).2.2).1 ≠ [] := by
          rw [hR1]
          exact List.cons_ne_nil y ys
        have hx := ih8 hne
        rw [hR1] at hx
        rw [hx, List.getLastD_cons, List.getLastD_cons]


/-- C2: after set_osec_offsets runs over the chunk list (assuming every
sh_addralign divides PAGE_SIZE): sh_offset values are non-decreasing in
chunk order and consecutive chunks respect the file-offset advance rule
(the next sh_offset is at least the previous chunk's logical end, that is
sh_offset plus sh_size unless that chunk is SHT_NOBITS); sh_addr values
are non-decreasing among SHF_ALLOC chunks and respect the vaddr advance
rule (advance by sh_size unless the chunk is both SHT_NOBITS and SHF_TLS);
sh_addr mod PAGE_SIZE equals sh_offset mod PAGE_SIZE for every SHF_ALLOC
chunk; the returned value is the final file offset (the last chunk's
logical end), and it is exactly the file size that main passes to
OutputFile::open and clear_padding. -/
theorem c2_set_osec_offsets_layout (chunks : List OutputChunk) (image_base : Nat)
    (hdvd : ∀ c ∈ chunks, c.shdr.sh_addralign ∣ PAGE_SIZE) :
    List.Pairwise (· ≤ ·)
      ((set_osec_offsets chunks image_base).1.map (fun c => c.shdr.sh_offset)) ∧
    List.Pairwise (· ≤ ·)
      (((set_osec_offsets chunks image_base).1.filter
        (fun c => c.shdr.sh_flags &&& SHF_ALLOC != 0)).map
        (fun c => c.shdr.sh_addr)) ∧
    (∀ c ∈ (set_osec_offsets chunks image_base).1,
      c.shdr.sh_flags &&& SHF_ALLOC ≠ 0 →
      c.shdr.sh_addr % PAGE_SIZE = c.shdr.sh_offset % PAGE_SIZE) ∧
    List.Chain' advOff (set_osec_offsets chunks image_base).1 ∧
    List.Chain' advAddr ((set_osec_offsets chunks image_base).1.filter
      (fun c => c.shdr.sh_flags &&& SHF_ALLOC != 0)) ∧
    ((set_osec_offsets chunks image_base).1 ≠ [] →
      (set_osec_offsets chunks image_base).2 =
        logical_end ((set_osec_offsets chunks image_base).1.getLastD ⟨{}, false⟩)) ∧
    (∀ (filler : Int) (copy : (Nat → Nat) → Nat → Nat),
      main_output chunks image_base filler copy =
        (output_image filler copy (set_osec_offsets chunks image_base).1
          (set_osec_offsets chunks image_base).2,
         (set_osec_offsets chunks image_base).2)) := by
  obtain ⟨h1, h2, h3, h4, h5, h6, h7, h8⟩ := osec_loop_spec chunks 0 image_base hdvd
  have hoffsets : List.Pairwise (· ≤ ·)
      ((set_osec_offsets chunks image_base).1.map (fun c => c.shdr.sh_offset)) := by
    apply List.chain'_iff_pairwise.1
    apply (List.chain'_map _).2
    exact List.Chain'.imp
      (fun a b h => le_trans (offset_le_logical_end a) h) h3
  have haddrs : List.Pairwise (· ≤ ·)
      (((set_osec_offsets chunks image_base).1.filter
        (fun c => c.shdr.sh_flags &&& SHF_ALLOC != 0)).map
        (fun c => c.shdr.sh_addr)) := by
    apply List.chain'_iff_pairwise.1
    apply (List.chain'_map _).2
    refine List.Chain'.imp ?_ h4
    intro a b h
    unfold advAddr at h
    omega
  exact ⟨hoffsets, haddrs, h5, h3, h4, h8, fun filler copy => rfl⟩

/-- C2 witness: two allocatable chunks (alignment 1, sizes 3 and 5, the
second SHT_NOBITS) laid out from image base 0x200000; the file offsets and
the virtual addresses both come out non-decreasing at this concrete
input. -/
theorem c2_set_osec_offsets_layout_witness :
    List.Pairwise (· ≤ ·)
      ((set_osec_offsets
        [{ shdr := { sh_flags := 2, sh_size := 3, sh_addralign := 1 } },
         { shdr := { sh_flags := 2, sh_size := 5, sh_type := 8, sh_addralign := 1 } }]
        0x200000).1.map (fun c => c.shdr.sh_offset)) ∧
    List.Pairwise (· ≤ ·)
      (((set_osec_offsets
        [{ shdr := { sh_flags := 2, sh_size := 3, sh_addralign := 1 } },
         { shdr := { sh_flags := 2, sh_size := 5, sh_type := 8, sh_addralign := 1 } }]
        0x200000).1.filter
        (fun c => c.shdr.sh_flags &&& SHF_ALLOC != 0)).map
        (fun c => c.shdr.sh_addr)) :=
  ⟨(c2_set_osec_offsets_layout
      [{ shdr := { sh_flags := 2, sh_size := 3, sh_addralign := 1 } },
       { shdr := { sh_flags := 2, sh_size := 5, sh_type := 8, sh_addralign := 1 } }]
      0x200000 (by decide)).1,
   (c2_set_osec_offsets_layout
      [{ shdr := { sh_flags := 2, sh_size := 3, sh_addralign := 1 } },
       { shdr := { sh_flags := 2, sh_size := 5, sh_type := 8, sh_addralign := 1 } }]
      0x200000 (by decide)).2.1⟩


lemma foldl_max_ge_init : ∀ (l : List Nat) (a : Nat), a ≤ l.foldl max a := by
  intro l
  induction l with
  | nil => intro a; exact le_refl a
  | cons x rest ih =>
    intro a
    exact le_trans (le_max_left a x) (ih (max a x))

lemma foldl_max_ge_mem : ∀ (l : List Nat) (a x : Nat), x ∈ l → x ≤ l.foldl max a := by
  intro l
  induction l with
  | nil => intro a x hx; simp at hx
  | cons y rest ih =>
    intro a x hx
    rcases List.mem_cons.1 hx with rfl | hx2
    · exact le_trans (le_max_right a x) (foldl_max_ge_init rest (max a x))
    · exact ih (max a y) x hx2

lemma foldl_max_attained : ∀ (l : List Nat) (a : Nat),
    l.foldl max a = a ∨ l.foldl max a ∈ l := by
  intro l
  induction l with
  | nil => intro a; exact Or.inl rfl
  | cons y rest ih =>
    intro a
    rcases ih (max a y) with h | h
    · rcases Nat.le_total a y with hy | hy
      · right
        rw [List.foldl_cons, h, Nat.max_eq_right hy]
        exact List.mem_cons_self y rest
      · left
        rw [List.foldl_cons, h, Nat.max_eq_left hy]
    · right
      exact List.mem_cons_of_mem y h

lemma pow_two_dvd_of_le {a b : Nat} (ha : ∃ i, a = 2 ^ i) (hb : ∃ j, b = 2 ^ j)
    (hab : a ≤ b) : a ∣ b := by
  obtain ⟨i, rfl⟩ := ha
  obtain ⟨j, rfl⟩ := hb
  exact pow_dvd_pow 2 ((Nat.pow_le_pow_iff_right (by norm_num)).1 hab)

lemma isec_slice_layout_spec :
    ∀ (sl : List InputChunk) (off al : Nat),
      (∀ m ∈ sl, 0 < m.shdr.sh_addralign) →
      (∀ m ∈ (isec_slice_layout sl off al).1,
        m.shdr.sh_addralign ∣ m.offset ∧
        m.offset + m.shdr.sh_size ≤ (isec_slice_layout sl off al).2.1 ∧
        m.shdr.sh_addralign ≤ (isec_slice_layout sl off al).2.2) ∧
      ((isec_slice_layout sl off al).1.map (fun m => m.shdr) =
        sl.map (fun m => m.shdr)) ∧
      al ≤ (isec_slice_layout sl off al).2.2 ∧
      off ≤ (isec_slice_layout sl off al).2.1 ∧
      ((isec_slice_layout sl off al).2.2 = al ∨
        ∃ m ∈ sl, (isec_slice_layout sl off al).2.2 = m.shdr.sh_addralign) := by
  intro sl
  induction sl with
  | nil =>
    intro off al _
    refine ⟨by simp [isec_slice_layout], by simp [isec_slice_layout],
      le_refl al, le_refl off, Or.inl rfl⟩
  | cons i rest ih =>
    intro off al hpos
    have hipos : 0 < i.shdr.sh_addralign := hpos i (List.mem_cons_self i rest)
    have hrpos : ∀ m ∈ rest, 0 < m.shdr.sh_addralign :=
      fun m hm => hpos m (List.mem_cons_of_mem i hm)
    have hunfold : isec_slice_layout (i :: rest) off al =
        ({ i with offset := align_to off i.shdr.sh_addralign } ::
          (isec_slice_layout rest (align_to off i.shdr.sh_addralign + i.shdr.sh_size)
            (max al i.shdr.sh_addralign)).1,
         (isec_slice_layout rest (align_to off i.shdr.sh_addralign + i.shdr.sh_size)
            (max al i.shdr.sh_addralign)).2) := by
      simp [isec_slice_layout]
    rw [hunfold]
    obtain ⟨ih1, ih2, ih3, ih4, ih5⟩ :=
      ih (align_to off i.shdr.sh_addralign + i.shdr.sh_size) (max al i.shdr.sh_addralign)
        hrpos
    refine ⟨?_, ?_, ?_, ?_, ?_⟩
    · intro m hm
      rcases List.mem_cons.1 hm with rfl | hm2
      · refine ⟨align_to_dvd off _ hipos, ?_, ?_⟩
        · exact ih4
        · exact le_trans (le_max_right al i.shdr.sh_addralign) ih3
      · exact ih1 m hm2
    · simp only [List.map_cons, ih2]
    · exact le_trans (le_max_left al i.shdr.sh_addralign) ih3
    · exact le_trans (le_trans (align_to_le off i.shdr.sh_addralign)
        (Nat.le_add_right _ i.shdr.sh_size)) ih4
    · rcases ih5 with h | ⟨m, hm, hme⟩
      · rcases Nat.le_total al i.shdr.sh_addralign with hy | hy
        · right
          exact ⟨i, List.mem_cons_self i rest, by rw [h, Nat.max_eq_right hy]⟩
        · left
          rw [h, Nat.max_eq_left hy]
      · right
        exact ⟨m, List.mem_cons_of_mem i hm, hme⟩


lemma isec_rebase_spec :
    ∀ (Ls : List (List InputChunk × Nat × Nat)) (A cur : Nat),
      0 < A → A ∣ cur →
      (∀ L ∈ Ls, ∀ m ∈ L.1, m.offset + m.shdr.sh_size ≤ L.2.1) →
      (∀ L ∈ Ls, ∀ m ∈ L.1, m.shdr.sh_addralign ∣ m.offset) →
      (∀ L ∈ Ls, ∀ m ∈ L.1, m.shdr.sh_addralign ∣ A) →
      (∀ m ∈ (isec_rebase Ls A cur).1, m.shdr.sh_addralign ∣ m.offset) ∧
      (∀ m ∈ (isec_rebase Ls A cur).1,
        m.offset + m.shdr.sh_size ≤ (isec_rebase Ls A cur).2) ∧
      ((isec_rebase Ls A cur).1.map (fun m => m.shdr) =
        (Ls.map (fun L => L.1.map (fun m => m.shdr))).flatten) ∧
      cur ≤ (isec_rebase Ls A cur).2 := by
  intro Ls
  induction Ls with
  | nil =>
    intro A cur _ _ _ _ _
    exact ⟨by simp [isec_rebase], by simp [isec_rebase], by simp [isec_rebase],
      le_refl cur⟩
  | cons L rest ih =>
    intro A cur hA hcur hsz hdvo hdvA
    have hszL := hsz L (List.mem_cons_self L rest)
    have hdvoL := hdvo L (List.mem_cons_self L rest)
    have hdvAL := hdvA L (List.mem_cons_self L rest)
    rcases rest with _ | ⟨M, rest2⟩
    · have hunfold : isec_rebase [L] A cur =
          (L.1.map (fun m => { m with offset := m.offset + cur }), cur + L.2.1) := by
        rfl
      rw [hunfold]
      refine ⟨?_, ?_, ?_, Nat.le_add_right cur L.2.1⟩
      · intro m hm
        obtain ⟨m0, hm0, rfl⟩ := List.mem_map.1 hm
        exact Dvd.dvd.add (hdvoL m0 hm0)
          (dvd_trans (hdvAL m0 hm0) hcur)
      · intro m hm
        obtain ⟨m0, hm0, rfl⟩ := List.mem_map.1 hm
        have := hszL m0 hm0
        simp only []
        omega
      · simp [List.map_map, Function.comp]
    · have hunfold : isec_rebase (L :: M :: rest2) A cur =
          (L.1.map (fun m => { m with offset := m.offset + cur }) ++
            (isec_rebase (M :: rest2) A (align_to (cur + L.2.1) A)).1,
           (isec_rebase (M :: rest2) A (align_to (cur + L.2.1) A)).2) := by
        simp [isec_rebase]
      rw [hunfold]
      have hcur2 : A ∣ align_to (cur + L.2.1) A := align_to_dvd _ A hA
      obtain ⟨ih1, ih2, ih3, ih4⟩ := ih A (align_to (cur + L.2.1) A) hA hcur2
        (fun x hx => hsz x (List.mem_cons_of_mem L hx))
        (fun x hx => hdvo x (List.mem_cons_of_mem L hx))
        (fun x hx => hdvA x (List.mem_cons_of_mem L hx))
      have hcurle : cur + L.2.1 ≤ align_to (cur + L.2.1) A := align_to_le _ A
      refine ⟨?_, ?_, ?_, by omega⟩
      · intro m hm
        rcases List.mem_append.1 hm with hm1 | hm2
        · obtain ⟨m0, hm0, rfl⟩ := List.mem_map.1 hm1
          exact Dvd.dvd.add (hdvoL m0 hm0) (dvd_trans (hdvAL m0 hm0) hcur)
        · exact ih1 m hm2
      · intro m hm
        rcases List.mem_append.1 hm with hm1 | hm2
        · obtain ⟨m0, hm0, rfl⟩ := List.mem_map.1 hm1
          have := hszL m0 hm0
          simp only []
          omega
        · exact ih2 m hm2
      · simp only [List.map_append, ih3, List.map_cons, List.flatten_cons]
        congr 1
        simp [List.map_map, Function.comp]

lemma getLastD_cons_ne_nil (x : Nat) (xs : List Nat) (d1 d2 : Nat) :
    (x :: xs).getLastD d1 = (x :: xs).getLastD d2 := by
  rw [List.getLastD_cons, List.getLastD_cons]

lemma isec_rebase_size_eq :
    ∀ (Ls : List (List InputChunk × Nat × Nat)) (A cur : Nat), Ls ≠ [] →
      (isec_rebase Ls A cur).2 =
        (isec_starts (Ls.map (fun l => l.2.1)) A cur).getLastD 0 +
          (Ls.map (fun l => l.2.1)).getLastD 0 := by
  intro Ls
  induction Ls with
  | nil => intro A cur h; exact absurd rfl h
  | cons L rest ih =>
    intro A cur _
    rcases rest with _ | ⟨M, rest2⟩
    · simp [isec_rebase, isec_starts]
    · have hunfold : (isec_rebase (L :: M :: rest2) A cur).2 =
          (isec_rebase (M :: rest2) A (align_to (cur + L.2.1) A)).2 := by
        simp [isec_rebase]
      rw [hunfold, ih A (align_to (cur + L.2.1) A) (List.cons_ne_nil M rest2)]
      simp only [List.map_cons, isec_starts, List.getLastD_cons]


/-- C4: after set_isec_offsets lays out a non-empty output section whose
members all have power-of-two sh_addralign: every member's final offset is
a multiple of its own sh_addralign; every member fits below the section
size (offset + sh_size ≤ sh_size); the members' section headers are
unchanged and in order; the section's sh_addralign bounds every member
alignment and is attained by some member; and sh_size equals the last
slice's aligned start plus the last slice's local end offset. -/
theorem c4_set_isec_offsets_invariants (members : List InputChunk)
    (hne : members ≠ [])
    (hpow : ∀ m ∈ members, ∃ k, m.shdr.sh_addralign = 2 ^ k) :
    (∀ m ∈ (set_isec_offsets_osec members).1,
      m.offset % m.shdr.sh_addralign = 0) ∧
    (∀ m ∈ (set_isec_offsets_osec members).1,
      m.offset + m.shdr.sh_size ≤ (set_isec_offsets_osec members).2.1) ∧
    ((set_isec_offsets_osec members).1.map (fun m => m.shdr) =
      members.map (fun m => m.shdr)) ∧
    (∀ m ∈ (set_isec_offsets_osec members).1,
      m.shdr.sh_addralign ≤ (set_isec_offsets_osec members).2.2) ∧
    (∃ m ∈ (set_isec_offsets_osec members).1,
      m.shdr.sh_addralign = (set_isec_offsets_osec members).2.2) ∧
    ((set_isec_offsets_osec members).2.1 =
      (isec_starts ((splitChunks 10000 members).map
          (fun sl => (isec_slice_layout sl 0 1).2.1))
        (set_isec_offsets_osec members).2.2 0).getLastD 0 +
      ((splitChunks 10000 members).map
        (fun sl => (isec_slice_layout sl 0 1).2.1)).getLastD 0) := by
  have hu : (1 : Nat) ≤ 10000 := by norm_num
  have hflat : (splitChunks 10000 members).flatten = members :=
    splitChunks_flatten hu members.length members le_rfl
  have hmem_sl : ∀ sl ∈ splitChunks 10000 members, ∀ m ∈ sl, m ∈ members := by
    intro sl hsl m hm
    rw [← hflat]
    exact List.mem_flatten.2 ⟨sl, hsl, hm⟩
  have hpos : ∀ m ∈ members, 0 < m.shdr.sh_addralign := by
    intro m hm
    obtain ⟨k, hk⟩ := hpow m hm
    rw [hk]
    exact Nat.pos_pow_of_pos k (by norm_num)
  have hslne : splitChunks 10000 members ≠ [] := by
    intro h
    rw [h] at hflat
    exact hne hflat.symm
  have hslice : ∀ sl ∈ splitChunks 10000 members,
      (∀ m ∈ (isec_slice_layout sl 0 1).1,
        m.shdr.sh_addralign ∣ m.offset ∧
        m.offset + m.shdr.sh_size ≤ (isec_slice_layout sl 0 1).2.1 ∧
        m.shdr.sh_addralign ≤ (isec_slice_layout sl 0 1).2.2) ∧
      ((isec_slice_layout sl 0 1).1.map (fun m => m.shdr) =
        sl.map (fun m => m.shdr)) ∧
      1 ≤ (isec_slice_layout sl 0 1).2.2 ∧
      ((isec_slice_layout sl 0 1).2.2 = 1 ∨
        ∃ m ∈ sl, (isec_slice_layout sl 0 1).2.2 = m.shdr.sh_addralign) := by
    intro sl hsl
    obtain ⟨s1, s2, s3, _, s5⟩ :=
      isec_slice_layout_spec sl 0 1 (fun m hm => hpos m (hmem_sl sl hsl m hm))
    exact ⟨s1, s2, s3, s5⟩
  have hlayoutpow : ∀ sl ∈ splitChunks 10000 members,
      ∃ k, (isec_slice_layout sl 0 1).2.2 = 2 ^ k := by
    intro sl hsl
    rcases (hslice sl hsl).2.2.2 with h1 | ⟨m, hm, hme⟩
    · exact ⟨0, by rw [h1]; norm_num⟩
    · obtain ⟨k, hk⟩ := hpow m (hmem_sl sl hsl m hm)
      exact ⟨k, by rw [hme, hk]⟩
  have hAmem : ∀ sl ∈ splitChunks 10000 members,
      (isec_slice_layout sl 0 1).2.2 ≤ (set_isec_offsets_osec members).2.2 := by
    intro sl hsl
    apply foldl_max_ge_mem
    exact List.mem_map.2 ⟨isec_slice_layout sl 0 1,
      List.mem_map.2 ⟨sl, hsl, rfl⟩, rfl⟩
  have hA1 : 1 ≤ (set_isec_offsets_osec members).2.2 := by
    rcases List.exists_mem_of_ne_nil _ hslne with ⟨sl, hsl⟩
    exact le_trans (hslice sl hsl).2.2.1 (hAmem sl hsl)
  have hAattain : ∃ sl ∈ splitChunks 10000 members,
      (isec_slice_layout sl 0 1).2.2 = (set_isec_offsets_osec members).2.2 := by
    rcases foldl_max_attained (((splitChunks 10000 members).map
        (fun sl => isec_slice_layout sl 0 1)).map (fun l => l.2.2)) 0 with h | h
    · exfalso
      have : (set_isec_offsets_osec members).2.2 = 0 := h
      omega
    · obtain ⟨L, hL, hLe⟩ := List.mem_map.1 h
      obtain ⟨sl, hsl, rfl⟩ := List.mem_map.1 hL
      exact ⟨sl, hsl, hLe⟩
  have hApow : ∃ k, (set_isec_offsets_osec members).2.2 = 2 ^ k := by
    obtain ⟨sl, hsl, hsle⟩ := hAattain
    obtain ⟨k, hk⟩ := hlayoutpow sl hsl
    exact ⟨k, by rw [← hsle, hk]⟩
  have hmempow : ∀ sl ∈ splitChunks 10000 members, ∀ m ∈ (isec_slice_layout sl 0 1).1,
      ∃ k, m.shdr.sh_addralign = 2 ^ k := by
    intro sl hsl m hm
    have hshdr : m.shdr ∈ sl.map (fun m => m.shdr) := by
      rw [← (hslice sl hsl).2.1]
      exact List.mem_map_of_mem _ hm
    obtain ⟨m0, hm0, hm0e⟩ := List.mem_map.1 hshdr
    obtain ⟨k, hk⟩ := hpow m0 (hmem_sl sl hsl m0 hm0)
    exact ⟨k, by rw [← hm0e, hk]⟩
  have hdvA : ∀ L ∈ (splitChunks 10000 members).map (fun sl => isec_slice_layout sl 0 1),
      ∀ m ∈ L.1, m.shdr.sh_addralign ∣ (set_isec_offsets_osec members).2.2 := by
    intro L hL m hm
    obtain ⟨sl, hsl, rfl⟩ := List.mem_map.1 hL
    exact pow_two_dvd_of_le (hmempow sl hsl m hm) hApow
      (le_trans ((hslice sl hsl).1 m hm).2.2 (hAmem sl hsl))
  obtain ⟨r1, r2, r3, _⟩ := isec_rebase_spec
    ((splitChunks 10000 members).map (fun sl => isec_slice_layout sl 0 1))
    (set_isec_offsets_osec members).2.2 0 (by omega) (dvd_zero _)
    (by
      intro L hL m hm
      obtain ⟨sl, hsl, rfl⟩ := List.mem_map.1 hL
      exact ((hslice sl hsl).1 m hm).2.1)
    (by
      intro L hL m hm
      obtain ⟨sl, hsl, rfl⟩ := List.mem_map.1 hL
      exact ((hslice sl hsl).1 m hm).1)
    hdvA
  have hout1 : (set_isec_offsets_osec members).1 =
      (isec_rebase ((splitChunks 10000 members).map (fun sl => isec_slice_layout sl 0 1))
        (set_isec_offsets_osec members).2.2 0).1 := rfl
  have hout2 : (set_isec_offsets_osec members).2.1 =
      (isec_rebase ((splitChunks 10000 members).map (fun sl => isec_slice_layout sl 0 1))
        (set_isec_offsets_osec members).2.2 0).2 := rfl
  have hmap : (set_isec_offsets_osec members).1.map (fun m => m.shdr) =
      members.map (fun m => m.shdr) := by
    rw [hout1, r3]
    have hcongr : ((splitChunks 10000 members).map (fun sl => isec_slice_layout sl 0 1)).map
        (fun L => L.1.map (fun m => m.shdr)) =
        (splitChunks 10000 members).map (fun sl => sl.map (fun m => m.shdr)) := by
      rw [List.map_map]
      exact List.map_congr_left (fun sl hsl => (hslice sl hsl).2.1)
    rw [hcongr, ← List.map_flatten, hflat]
  have hposout : ∀ m ∈ (set_isec_offsets_osec members).1, 0 < m.shdr.sh_addralign := by
    intro m hm
    have hshdr : m.shdr ∈ members.map (fun m => m.shdr) := by
      rw [← hmap]
      exact List.mem_map_of_mem _ hm
    obtain ⟨m0, hm0, hm0e⟩ := List.mem_map.1 hshdr
    rw [← hm0e]
    exact hpos m0 hm0
  refine ⟨?_, ?_, hmap, ?_, ?_, ?_⟩
  · intro m hm
    rw [hout1] at hm
    exact Nat.mod_eq_zero_of_dvd (r1 m hm)
  · intro m hm
    rw [hout1] at hm
    rw [hout2]
    exact r2 m hm
  · intro m hm
    have hshdr : m.shdr ∈ (((splitChunks 10000 members).map
        (fun sl => isec_slice_layout sl 0 1)).map
        (fun L => L.1.map (fun mm => mm.shdr))).flatten := by
      rw [← r3, ← hout1]
      exact List.mem_map_of_mem _ hm
    obtain ⟨lshdr, hlshdr, hmemin⟩ := List.mem_flatten.1 hshdr
    obtain ⟨L, hL, rfl⟩ := List.mem_map.1 hlshdr
    obtain ⟨m1, hm1, hm1e⟩ := List.mem_map.1 hmemin
    obtain ⟨sl, hsl, rfl⟩ := List.mem_map.1 hL
    rw [← hm1e]
    exact le_trans (((hslice sl hsl).1 m1 hm1).2.2) (hAmem sl hsl)
  · obtain ⟨sl, hsl, hsle⟩ := hAattain
    rcases (hslice sl hsl).2.2.2 with h1 | ⟨m, hm, hme⟩
    · have hOutNe : (set_isec_offsets_osec members).1 ≠ [] := by
        intro hempty
        have := hmap
        rw [hempty] at this
        simp at this
        exact hne this
      rcases List.exists_mem_of_ne_nil _ hOutNe with ⟨m, hm⟩
      refine ⟨m, hm, ?_⟩
      have hub : m.shdr.sh_addralign ≤ (set_isec_offsets_osec members).2.2 := by
        have hshdr : m.shdr ∈ (((splitChunks 10000 members).map
            (fun sl2 => isec_slice_layout sl2 0 1)).map
            (fun L => L.1.map (fun mm => mm.shdr))).flatten := by
          rw [← r3, ← hout1]
          exact List.mem_map_of_mem _ hm
        obtain ⟨lshdr, hlshdr, hmemin⟩ := List.mem_flatten.1 hshdr
        obtain ⟨L, hL, rfl⟩ := List.mem_map.1 hlshdr
        obtain ⟨m1, hm1, hm1e⟩ := List.mem_map.1 hmemin
        obtain ⟨sl2, hsl2, rfl⟩ := List.mem_map.1 hL
        rw [← hm1e]
        exact le_trans (((hslice sl2 hsl2).1 m1 hm1).2.2) (hAmem sl2 hsl2)
      have hmpos := hposout m hm
      rw [← hsle, h1]
      rw [← hsle, h1] at hub
      omega
    · have hshdr : m.shdr ∈ members.map (fun mm => mm.shdr) :=
        List.mem_map_of_mem _ (hmem_sl sl hsl m hm)
      rw [← hmap] at hshdr
      obtain ⟨m2, hm2, hm2e⟩ := List.mem_map.1 hshdr
      exact ⟨m2, hm2, by rw [hm2e, ← hme, hsle]⟩
  · rw [hout2, isec_rebase_size_eq _ _ _ (by
      intro h
      rw [List.map_eq_nil_iff] at h
      exact hslne h)]
    rw [List.map_map]
    rfl

/-- C4 witness: three members with alignments 4, 1 and 2 and sizes 3, 5
and 2; member offsets are multiples of their alignments and members fit
below the section size at this concrete input. -/
theorem c4_set_isec_offsets_invariants_witness :
    (∀ m ∈ (set_isec_offsets_osec
        [{ shdr := { sh_addralign := 4, sh_size := 3 } },
         { shdr := { sh_addralign := 1, sh_size := 5 } },
         { shdr := { sh_addralign := 2, sh_size := 2 } }]).1,
      m.offset % m.shdr.sh_addralign = 0) ∧
    (∀ m ∈ (set_isec_offsets_osec
        [{ shdr := { sh_addralign := 4, sh_size := 3 } },
         { shdr := { sh_addralign := 1, sh_size := 5 } },
         { shdr := { sh_addralign := 2, sh_size := 2 } }]).1,
      m.offset + m.shdr.sh_size ≤ (set_isec_offsets_osec
        [{ shdr := { sh_addralign := 4, sh_size := 3 } },
         { shdr := { sh_addralign := 1, sh_size := 5 } },
         { shdr := { sh_addralign := 2, sh_size := 2 } }]).2.1) :=
  ⟨(c4_set_isec_offsets_invariants
      [{ shdr := { sh_addralign := 4, sh_size := 3 } },
       { shdr := { sh_addralign := 1, sh_size := 5 } },
       { shdr := { sh_addralign := 2, sh_size := 2 } }] (by decide)
      (by
        intro m hm
        fin_cases hm
        · exact ⟨2, rfl⟩
        · exact ⟨0, rfl⟩
        · exact ⟨1, rfl⟩)).1,
   (c4_set_isec_offsets_invariants
      [{ shdr := { sh_addralign := 4, sh_size := 3 } },
       { shdr := { sh_addralign := 1, sh_size := 5 } },
       { shdr := { sh_addralign := 2, sh_size := 2 } }] (by decide)
      (by
        intro m hm
        fin_cases hm
        · exact ⟨2, rfl⟩
        · exact ⟨0, rfl⟩
        · exact ⟨1, rfl⟩)).2.1⟩


lemma fill_walk_spec :
    ∀ (rest : List DynSymbol) (prev : DynSymbol) (st : VerState),
      st.version = 1 + st.nVernaux →
      (fill_walk prev rest st).version = 1 + (fill_walk prev rest st).nVernaux ∧
      (fill_walk prev rest st).nVerneed = st.nVerneed + fileBounds prev rest ∧
      (fill_walk prev rest st).nVernaux = st.nVernaux + pairBounds prev rest ∧
      (fill_walk prev rest st).writes = st.writes ++ walkWrites prev rest st.nVernaux := by
  intro rest
  induction rest with
  | nil =>
    intro prev st hv
    exact ⟨hv, rfl, rfl, by simp [fill_walk, walkWrites]⟩
  | cons s rest2 ih =>
    intro prev st hv
    by_cases hf : s.fileId ≠ prev.fileId
    · have hstep : fill_walk prev (s :: rest2) st =
          fill_walk s rest2
            { version := st.version + 1, nVerneed := st.nVerneed + 1,
              nVernaux := st.nVernaux + 1,
              writes := st.writes ++ [(s.dynsym_idx, st.version + 1)] } := by
        simp [fill_walk, ver_add_verneed, ver_add_aux, hf]
      obtain ⟨ih1, ih2, ih3, ih4⟩ := ih s
        { version := st.version + 1, nVerneed := st.nVerneed + 1,
          nVernaux := st.nVernaux + 1,
          writes := st.writes ++ [(s.dynsym_idx, st.version + 1)] }
        (by show st.version + 1 = 1 + (st.nVernaux + 1); omega)
      rw [hstep]
      refine ⟨ih1, ?_, ?_, ?_⟩
      · rw [ih2]
        simp only [fileBounds, if_pos hf]
        omega
      · rw [ih3]
        simp only [pairBounds, if_pos (Or.inl hf)]
        omega
      · rw [ih4]
        simp only [walkWrites, if_pos (Or.inl hf)]
        rw [List.append_assoc]
        congr 1
        rw [List.singleton_append]
        have h2 : st.version + 1 = 1 + (st.nVernaux + 1) := by omega
        rw [h2]
    · push_neg at hf
      by_cases hvr : s.ver_idx ≠ prev.ver_idx
      · have hstep : fill_walk prev (s :: rest2) st =
            fill_walk s rest2
              { version := st.version + 1, nVerneed := st.nVerneed,
                nVernaux := st.nVernaux + 1,
                writes := st.writes ++ [(s.dynsym_idx, st.version + 1)] } := by
          simp [fill_walk, ver_add_aux, hf, hvr]
        obtain ⟨ih1, ih2, ih3, ih4⟩ := ih s
          { version := st.version + 1, nVerneed := st.nVerneed,
            nVernaux := st.nVernaux + 1,
            writes := st.writes ++ [(s.dynsym_idx, st.version + 1)] }
          (by show st.version + 1 = 1 + (st.nVernaux + 1); omega)
        rw [hstep]
        refine ⟨ih1, ?_, ?_, ?_⟩
        · rw [ih2]
          simp only [fileBounds, if_neg (show ¬s.fileId ≠ prev.fileId by omega)]
          omega
        · rw [ih3]
          simp only [pairBounds, if_pos (Or.inr hvr)]
          omega
        · rw [ih4]
          simp only [walkWrites, if_pos (Or.inr hvr)]
          rw [List.append_assoc]
          congr 1
          rw [List.singleton_append]
          have h2 : st.version + 1 = 1 + (st.nVernaux + 1) := by omega
          rw [h2]
      · push_neg at hvr
        have hstep : fill_walk prev (s :: rest2) st =
            fill_walk s rest2
              { version := st.version, nVerneed := st.nVerneed,
                nVernaux := st.nVernaux,
                writes := st.writes ++ [(s.dynsym_idx, st.version)] } := by
          simp [fill_walk, hf, hvr]
        obtain ⟨ih1, ih2, ih3, ih4⟩ := ih s
          { version := st.version, nVerneed := st.nVerneed,
            nVernaux := st.nVernaux,
            writes := st.writes ++ [(s.dynsym_idx, st.version)] }
          (by exact hv)
        rw [hstep]
        refine ⟨ih1, ?_, ?_, ?_⟩
        · rw [ih2]
          simp only [fileBounds, if_neg (show ¬s.fileId ≠ prev.fileId by omega)]
          omega
        · rw [ih3]
          simp only [pairBounds,
            if_neg (show ¬(s.fileId ≠ prev.fileId ∨ s.ver_idx ≠ prev.ver_idx) by omega)]
          omega
        · rw [ih4]
          simp only [walkWrites,
            if_neg (show ¬(s.fileId ≠ prev.fileId ∨ s.ver_idx ≠ prev.ver_idx) by omega),
            Nat.add_zero]
          rw [List.append_assoc]
          congr 1
          rw [List.singleton_append]
          have h2 : st.version = 1 + st.nVernaux := hv
          rw [h2]


lemma verLexLe_soname_le {a b : DynSymbol} (h : verLexLe a b) : a.soname ≤ b.soname := by
  rcases h with h | ⟨h, _⟩ <;> omega

lemma sonameCoherent_tail {x : DynSymbol} {l : List DynSymbol}
    (h : sonameCoherent (x :: l)) : sonameCoherent l :=
  ⟨fun a ha b hb => h.1 a (List.mem_cons_of_mem x ha) b (List.mem_cons_of_mem x hb),
   fun a ha b hb => h.2 a (List.mem_cons_of_mem x ha) b (List.mem_cons_of_mem x hb)⟩

lemma bounds_eq_card_file :
    ∀ (rest : List DynSymbol) (prev : DynSymbol),
      List.Pairwise verLexLe (prev :: rest) →
      sonameCoherent (prev :: rest) →
      1 + fileBounds prev rest =
        ((prev :: rest).map (fun s => s.fileId)).toFinset.card := by
  intro rest
  induction rest with
  | nil => intro prev _ _; simp [fileBounds]
  | cons s rest2 ih =>
    intro prev hsort hco
    have hsort2 : List.Pairwise verLexLe (s :: rest2) := hsort.of_cons
    have hco2 : sonameCoherent (s :: rest2) := sonameCoherent_tail hco
    have hprevle : ∀ y ∈ s :: rest2, verLexLe prev y := (List.pairwise_cons.1 hsort).1
    by_cases hf : s.fileId = prev.fileId
    · have hfb : fileBounds prev (s :: rest2) = fileBounds s rest2 := by
        simp [fileBounds, hf]
      rw [hfb, ih s hsort2 hco2]
      have hmem : prev.fileId ∈ ((s :: rest2).map (fun x => x.fileId)).toFinset := by
        rw [List.mem_toFinset]
        exact List.mem_map.2 ⟨s, List.mem_cons_self s rest2, hf⟩
      conv_rhs => rw [List.map_cons, List.toFinset_cons]
      rw [Finset.card_insert_of_mem hmem]
    · have hps : prev.soname ≠ s.soname := by
        intro he
        exact hf (hco.2 s (by simp) prev (by simp) he.symm)
      have hlt : prev.soname < s.soname := by
        have := verLexLe_soname_le (hprevle s (List.mem_cons_self s rest2))
        omega
      have hnotmem : prev.fileId ∉ (s :: rest2).map (fun x => x.fileId) := by
        intro hmem
        obtain ⟨t, ht, hte⟩ := List.mem_map.1 hmem
        have hts : t.soname = prev.soname :=
          hco.1 t (List.mem_cons_of_mem prev ht) prev (by simp) hte
        have hsle : s.soname ≤ t.soname := by
          rcases List.mem_cons.1 ht with rfl | ht2
          · exact le_refl _
          · exact verLexLe_soname_le ((List.pairwise_cons.1 hsort2).1 t ht2)
        omega
      have hfb : fileBounds prev (s :: rest2) = 1 + fileBounds s rest2 := by
        simp [fileBounds, Ne.symm, hf]
      rw [hfb, ih s hsort2 hco2]
      conv_rhs => rw [List.map_cons, List.toFinset_cons]
      rw [Finset.card_insert_of_not_mem (by rw [List.mem_toFinset]; exact hnotmem)]
      omega

lemma bounds_eq_card_pair :
    ∀ (rest : List DynSymbol) (prev : DynSymbol),
      List.Pairwise verLexLe (prev :: rest) →
      sonameCoherent (prev :: rest) →
      1 + pairBounds prev rest =
        ((prev :: rest).map (fun s => (s.fileId, s.ver_idx))).toFinset.card := by
  intro rest
  induction rest with
  | nil => intro prev _ _; simp [pairBounds]
  | cons s rest2 ih =>
    intro prev hsort hco
    have hsort2 : List.Pairwise verLexLe (s :: rest2) := hsort.of_cons
    have hco2 : sonameCoherent (s :: rest2) := sonameCoherent_tail hco
    have hprevle : ∀ y ∈ s :: rest2, verLexLe prev y := (List.pairwise_cons.1 hsort).1
    by_cases hp : s.fileId = prev.fileId ∧ s.ver_idx = prev.ver_idx
    · have hpb : pairBounds prev (s :: rest2) = pairBounds s rest2 := by
        simp [pairBounds, hp.1, hp.2]
      rw [hpb, ih s hsort2 hco2]
      have hmem : (prev.fileId, prev.ver_idx) ∈
          ((s :: rest2).map (fun x => (x.fileId, x.ver_idx))).toFinset := by
        rw [List.mem_toFinset]
        exact List.mem_map.2 ⟨s, List.mem_cons_self s rest2, by rw [hp.1, hp.2]⟩
      conv_rhs => rw [List.map_cons, List.toFinset_cons]
      rw [Finset.card_insert_of_mem hmem]
    · have hnotmem : (prev.fileId, prev.ver_idx) ∉
          (s :: rest2).map (fun x => (x.fileId, x.ver_idx)) := by
        intro hmem
        obtain ⟨t, ht, hte⟩ := List.mem_map.1 hmem
        have htf : t.fileId = prev.fileId := (Prod.mk.injEq _ _ _ _ ▸ hte).1
        have htv : t.ver_idx = prev.ver_idx := (Prod.mk.injEq _ _ _ _ ▸ hte).2
        have hts : t.soname = prev.soname :=
          hco.1 t (List.mem_cons_of_mem prev ht) prev (by simp) htf
        have hsle : verLexLe s t ∨ t = s := by
          rcases List.mem_cons.1 ht with rfl | ht2
          · exact Or.inr rfl
          · exact Or.inl ((List.pairwise_cons.1 hsort2).1 t ht2)
        by_cases hf : s.fileId = prev.fileId
        · -- same file: sonames all equal, version indices strictly grow
          have hvne : s.ver_idx ≠ prev.ver_idx := fun hv => hp ⟨hf, hv⟩
          have hsps : s.soname = prev.soname := hco.1 s (by simp) prev (by simp) hf
          have hvle : prev.ver_idx ≤ s.ver_idx := by
            rcases hprevle s (List.mem_cons_self s rest2) with h | ⟨_, h⟩
            · omega
            · exact h
          have hvlt : prev.ver_idx < s.ver_idx := by omega
          rcases hsle with h | rfl
          · rcases h with h | ⟨_, h⟩
            · omega
            · omega
          · omega
        · -- different file: sonames strictly grow past prev
          have hps : prev.soname ≠ s.soname := by
            intro he
            exact hf (hco.2 s (by simp) prev (by simp) he.symm)
          have hlt : prev.soname < s.soname := by
            have := verLexLe_soname_le (hprevle s (List.mem_cons_self s rest2))
            omega
          rcases hsle with h | rfl
          · have := verLexLe_soname_le h
            omega
          · omega
      have hpb : pairBounds prev (s :: rest2) = 1 + pairBounds s rest2 := by
        have : s.fileId ≠ prev.fileId ∨ s.ver_idx ≠ prev.ver_idx := by tauto
        simp [pairBounds, this]
      rw [hpb, ih s hsort2 hco2]
      conv_rhs => rw [List.map_cons, List.toFinset_cons]
      rw [Finset.card_insert_of_not_mem (by rw [List.mem_toFinset]; exact hnotmem)]
      omega


lemma walkWrites_length :
    ∀ (rest : List DynSymbol) (prev : DynSymbol) (n : Nat),
      (walkWrites prev rest n).length = rest.length := by
  intro rest
  induction rest with
  | nil => intro prev n; rfl
  | cons s rest2 ih =>
    intro prev n
    simp only [walkWrites, List.length_cons, ih]

lemma walkWrites_map_fst :
    ∀ (rest : List DynSymbol) (prev : DynSymbol) (n : Nat),
      (walkWrites prev rest n).map Prod.fst = rest.map (fun s => s.dynsym_idx) := by
  intro rest
  induction rest with
  | nil => intro prev n; rfl
  | cons s rest2 ih =>
    intro prev n
    simp only [walkWrites, List.map_cons, ih]

lemma walkWrites_getD :
    ∀ (rest : List DynSymbol) (prev : DynSymbol) (n k : Nat), k < rest.length →
      (walkWrites prev rest n).getD k (0, 0) =
        ((rest.getD k ⟨0, 0, 0, 0⟩).dynsym_idx,
         1 + n + pairBounds prev (rest.take (k + 1))) := by
  intro rest
  induction rest with
  | nil => intro prev n k hk; simp at hk
  | cons s rest2 ih =>
    intro prev n k hk
    cases k with
    | zero =>
      simp only [walkWrites, List.getD_cons_zero, List.take_succ_cons, List.take_zero,
        pairBounds]
      exact congrArg (Prod.mk _) (by omega)
    | succ m =>
      have hm : m < rest2.length := by
        simp only [List.length_cons] at hk
        omega
      simp only [walkWrites, List.getD_cons_succ, List.take_succ_cons, pairBounds]
      rw [ih s _ m hm]
      exact congrArg (Prod.mk _) (by omega)

lemma foldl_set_length :
    ∀ (ws : List (Nat × Nat)) (c : List Nat),
      (ws.foldl (fun c w => c.set w.1 w.2) c).length = c.length := by
  intro ws
  induction ws with
  | nil => intro c; rfl
  | cons w rest ih =>
    intro c
    simp only [List.foldl_cons, ih, List.length_set]

lemma foldl_set_getD_not_mem :
    ∀ (ws : List (Nat × Nat)) (c : List Nat) (j d : Nat), j ∉ ws.map Prod.fst →
      (ws.foldl (fun c w => c.set w.1 w.2) c).getD j d = c.getD j d := by
  intro ws
  induction ws with
  | nil => intro c j d _; rfl
  | cons w rest ih =>
    intro c j d hj
    have hne : w.1 ≠ j := by
      intro he
      exact hj (by rw [List.map_cons, ← he]; exact List.mem_cons_self _ _)
    have hj2 : j ∉ rest.map Prod.fst := fun hm => hj (List.mem_cons_of_mem _ hm)
    simp only [List.foldl_cons]
    rw [ih (c.set w.1 w.2) j d hj2, List.getD_eq_getElem?_getD,
      List.getD_eq_getElem?_getD, List.getElem?_set_ne hne]

lemma foldl_set_getD_written :
    ∀ (ws : List (Nat × Nat)) (c : List Nat) (j v d : Nat),
      (ws.map Prod.fst).Nodup → (j, v) ∈ ws → j < c.length →
      (ws.foldl (fun c w => c.set w.1 w.2) c).getD j d = v := by
  intro ws
  induction ws with
  | nil => intro c j v d _ hm _; simp at hm
  | cons w rest ih =>
    intro c j v d hnd hm hj
    rcases List.mem_cons.1 hm with rfl | hm2
    · have hj2 : j ∉ rest.map Prod.fst := by
        have := (List.pairwise_cons.1 hnd).1
        intro hmem
        exact (this j hmem) rfl
      simp only [List.foldl_cons]
      rw [foldl_set_getD_not_mem rest _ j d hj2, List.getD_eq_getElem?_getD,
        List.getElem?_set_self (by simpa using hj)]
      rfl
    · simp only [List.foldl_cons]
      exact ih (c.set w.1 w.2) j v d (List.Pairwise.of_cons hnd) hm2
        (by simpa using hj)


lemma sonameCoherent_sublist {l1 l2 : List DynSymbol} (hsub : List.Sublist l1 l2)
    (h : sonameCoherent l2) : sonameCoherent l1 :=
  ⟨fun a ha b hb => h.1 a (hsub.subset ha) b (hsub.subset hb),
   fun a ha b hb => h.2 a (hsub.subset ha) b (hsub.subset hb)⟩

/-- C5: fill_symbol_versions, on a non-empty list of dynamic symbols with
ver_idx at least 2, sorted by (soname of defining file, ver_idx) with
sonames and defining files determining each other and dynsym indices
distinct and in range: .gnu.version gets size dynsym count + 1 with entry 0
equal to 0 and every unwritten entry equal to 1; exactly one Verneed record
is emitted per distinct defining file and exactly one Vernaux per distinct
(file, ver_idx); the version counter always equals 1 plus the number of
Vernaux records; and the .gnu.version slot of the k-th symbol receives the
Vernaux counter at that point, namely 1 plus the number of distinct
(file, ver_idx) pairs among the first k+1 symbols (so the first symbol
gets 2 and the counter increments by one per Vernaux). -/
theorem c5_fill_symbol_versions_walk (dynsymCount : Nat) (syms : List DynSymbol)
    (hne : syms ≠ [])
    (hsort : List.Pairwise verLexLe syms)
    (hco : sonameCoherent syms)
    (hv2 : ∀ s ∈ syms, 2 ≤ s.ver_idx)
    (hidx : ∀ s ∈ syms, 1 ≤ s.dynsym_idx ∧ s.dynsym_idx ≤ dynsymCount)
    (hnodup : (syms.map (fun s => s.dynsym_idx)).Nodup) :
    (fill_symbol_versions dynsymCount syms).isSome ∧
    ∀ contents fin, fill_symbol_versions dynsymCount syms = some (contents, fin) →
      contents.length = dynsymCount + 1 ∧
      contents.getD 0 0 = 0 ∧
      (∀ j, 1 ≤ j → j ≤ dynsymCount → j ∉ syms.map (fun s => s.dynsym_idx) →
        contents.getD j 0 = 1) ∧
      fin.nVerneed = (syms.map (fun s => s.fileId)).toFinset.card ∧
      fin.nVernaux = (syms.map (fun s => (s.fileId, s.ver_idx))).toFinset.card ∧
      fin.version = 1 + fin.nVernaux ∧
      (∀ k, k < syms.length →
        contents.getD (syms.getD k ⟨0, 0, 0, 0⟩).dynsym_idx 0 =
          1 + ((syms.take (k + 1)).map
            (fun s => (s.fileId, s.ver_idx))).toFinset.card) := by
  rcases syms with _ | ⟨s0, rest⟩
  · exact absurd rfl hne
  have hform : fill_symbol_versions dynsymCount (s0 :: rest) =
      some ((fill_walk s0 rest
          { version := 2, nVerneed := 1, nVernaux := 1,
            writes := [(s0.dynsym_idx, 2)] }).writes.foldl
            (fun c w => c.set w.1 w.2)
            ((List.replicate (dynsymCount + 1) 1).set 0 0),
        fill_walk s0 rest
          { version := 2, nVerneed := 1, nVernaux := 1,
            writes := [(s0.dynsym_idx, 2)] }) := rfl
  refine ⟨by rw [hform]; rfl, ?_⟩
  intro contents fin heq
  rw [hform] at heq
  obtain ⟨hceq, hfeq⟩ := Prod.mk.injEq .. ▸ Option.some.inj heq
  obtain ⟨hw1, hw2, hw3, hw4⟩ := fill_walk_spec rest s0
    { version := 2, nVerneed := 1, nVernaux := 1, writes := [(s0.dynsym_idx, 2)] }
    rfl
  have hwrites : fin.writes = (s0.dynsym_idx, 2) :: walkWrites s0 rest 1 := by
    rw [← hfeq, hw4]
    rfl
  have hwmapfst : fin.writes.map Prod.fst = (s0 :: rest).map (fun s => s.dynsym_idx) := by
    rw [hwrites, List.map_cons, walkWrites_map_fst, List.map_cons]
  have hwnodup : (fin.writes.map Prod.fst).Nodup := by
    rw [hwmapfst]
    exact hnodup
  have hc0len : ((List.replicate (dynsymCount + 1) 1).set 0 0).length = dynsymCount + 1 := by
    rw [List.length_set, List.length_replicate]
  have hclen : contents.length = dynsymCount + 1 := by
    rw [← hceq, foldl_set_length, hc0len]
  have hc0getD : ∀ j, 1 ≤ j → j ≤ dynsymCount →
      ((List.replicate (dynsymCount + 1) 1).set 0 0).getD j 0 = 1 := by
    intro j h1 h2
    rw [List.getD_eq_getElem?_getD, List.getElem?_set_ne (by omega),
      List.getElem?_replicate, if_pos (by omega)]
    rfl
  have hwritten : ∀ j v, (j, v) ∈ fin.writes → contents.getD j 0 = v := by
    intro j v hm
    have hjle : 1 ≤ j ∧ j ≤ dynsymCount := by
      have : j ∈ fin.writes.map Prod.fst := by
        exact List.mem_map.2 ⟨(j, v), hm, rfl⟩
      rw [hwmapfst] at this
      obtain ⟨t, ht, hte⟩ := List.mem_map.1 this
      have := hidx t ht
      omega
    rw [← hceq, hfeq]
    exact foldl_set_getD_written fin.writes ((List.replicate (dynsymCount + 1) 1).set 0 0)
      j v 0 hwnodup hm (by rw [hc0len]; omega)
  refine ⟨hclen, ?_, ?_, ?_, ?_, ?_, ?_⟩
  · -- entry 0 is 0
    have h0 : (0 : Nat) ∉ fin.writes.map Prod.fst := by
      rw [hwmapfst]
      intro hmem
      obtain ⟨t, ht, hte⟩ := List.mem_map.1 hmem
      have := hidx t ht
      omega
    rw [← hceq, hfeq, foldl_set_getD_not_mem _ _ _ _ h0, List.getD_eq_getElem?_getD,
      List.getElem?_set_self (by rw [List.length_replicate]; omega)]
    rfl
  · -- unwritten entries are 1
    intro j h1 h2 hnm
    have hj : j ∉ fin.writes.map Prod.fst := by
      rw [hwmapfst]
      exact hnm
    rw [← hceq, hfeq, foldl_set_getD_not_mem _ _ _ _ hj]
    exact hc0getD j h1 h2
  · rw [← hfeq, hw2]
    simp only []
    exact bounds_eq_card_file rest s0 hsort hco
  · rw [← hfeq, hw3]
    simp only []
    exact bounds_eq_card_pair rest s0 hsort hco
  · rw [← hfeq]
    exact hw1
  · intro k hk
    cases k with
    | zero =>
      have hmem : (s0.dynsym_idx, 2) ∈ fin.writes := by
        rw [hwrites]
        exact List.mem_cons_self _ _
      rw [List.getD_cons_zero, hwritten s0.dynsym_idx 2 hmem]
      simp
    | succ m =>
      have hm : m < rest.length := by
        simp only [List.length_cons] at hk
        omega
      have hentry := walkWrites_getD rest s0 1 m hm
      have hmem : ((rest.getD m ⟨0, 0, 0, 0⟩).dynsym_idx,
          1 + 1 + pairBounds s0 (rest.take (m + 1))) ∈ fin.writes := by
        rw [hwrites]
        apply List.mem_cons_of_mem
        rw [← hentry]
        have hlen : m < (walkWrites s0 rest 1).length := by
          rw [walkWrites_length]
          exact hm
        rw [List.getD_eq_getElem _ _ hlen]
        exact (walkWrites s0 rest 1).getElem_mem hlen
      rw [List.getD_cons_succ, hwritten _ _ hmem]
      have hsub : List.Sublist (s0 :: rest.take (m + 1)) (s0 :: rest) :=
        List.Sublist.cons₂ s0 (List.take_sublist (m + 1) rest)
      have hcard := bounds_eq_card_pair (rest.take (m + 1)) s0
        (hsort.sublist hsub) (sonameCoherent_sublist hsub hco)
      rw [List.take_succ_cons]
      omega


/-- C5 witness: three symbols over two shared files (two versions in the
first file): the first symbol's slot gets 2, the second 3 (new Vernaux in
the same file), the third 4 (new Verneed); two Verneed and three Vernaux
records are emitted; .gnu.version has size 4 with entry 0 zero. -/
theorem c5_fill_symbol_versions_walk_witness :
    (fill_symbol_versions 3
      [⟨7, 1, 2, 1⟩, ⟨7, 1, 3, 2⟩, ⟨9, 2, 2, 3⟩]).isSome ∧
    ((4 : Nat) = 3 + 1 ∧
      ([(0 : Nat), 2, 3, 4]).getD 0 0 = 0 ∧
      (∀ j, 1 ≤ j → j ≤ 3 →
        j ∉ ([⟨7, 1, 2, 1⟩, ⟨7, 1, 3, 2⟩, ⟨9, 2, 2, 3⟩] :
            List DynSymbol).map (fun s => s.dynsym_idx) →
        ([(0 : Nat), 2, 3, 4]).getD j 0 = 1) ∧
      (2 : Nat) = (([⟨7, 1, 2, 1⟩, ⟨7, 1, 3, 2⟩, ⟨9, 2, 2, 3⟩] :
          List DynSymbol).map (fun s => s.fileId)).toFinset.card ∧
      (3 : Nat) = (([⟨7, 1, 2, 1⟩, ⟨7, 1, 3, 2⟩, ⟨9, 2, 2, 3⟩] :
          List DynSymbol).map (fun s => (s.fileId, s.ver_idx))).toFinset.card ∧
      (4 : Nat) = 1 + 3 ∧
      (∀ k, k < ([⟨7, 1, 2, 1⟩, ⟨7, 1, 3, 2⟩, ⟨9, 2, 2, 3⟩] :
          List DynSymbol).length →
        ([(0 : Nat), 2, 3, 4]).getD
          ((([⟨7, 1, 2, 1⟩, ⟨7, 1, 3, 2⟩, ⟨9, 2, 2, 3⟩] :
            List DynSymbol).getD k ⟨0, 0, 0, 0⟩).dynsym_idx) 0 =
          1 + ((([⟨7, 1, 2, 1⟩, ⟨7, 1, 3, 2⟩, ⟨9, 2, 2, 3⟩] :
            List DynSymbol).take (k + 1)).map
            (fun s => (s.fileId, s.ver_idx))).toFinset.card)) := by
  have h := c5_fill_symbol_versions_walk 3
    [⟨7, 1, 2, 1⟩, ⟨7, 1, 3, 2⟩, ⟨9, 2, 2, 3⟩]
    (by decide) (by simp [List.pairwise_cons, verLexLe])
    (by constructor <;> decide)
    (by decide) (by decide) (by decide)
  have h2 := h.2 [0, 2, 3, 4]
    { version := 4, nVerneed := 2, nVernaux := 3, writes := [(1, 2), (2, 3), (3, 4)] }
    (by decide)
  obtain ⟨a1, a2, a3, a4, a5, a6, a7⟩ := h2
  exact ⟨h.1, a1.symm ▸ ⟨rfl, a2, a3, a4, a5, by omega, a7⟩⟩


lemma cand_better_true_strength {new cur : Candidate} (h : cand_better new cur = true) :
    strengthOf cur.esym ≤ strengthOf new.esym := by
  unfold cand_better at h
  by_cases h1 : strengthOf new.esym > strengthOf cur.esym
  · omega
  · rw [if_neg h1] at h
    by_cases h2 : strengthOf new.esym < strengthOf cur.esym
    · rw [if_pos h2] at h
      exact absurd h (by decide)
    · omega

lemma cand_better_false_strength {new cur : Candidate} (h : cand_better new cur = false) :
    strengthOf new.esym ≤ strengthOf cur.esym := by
  unfold cand_better at h
  by_cases h1 : strengthOf new.esym > strengthOf cur.esym
  · rw [if_pos h1] at h
    exact absurd h (by decide)
  · omega

lemma strength_ge_two {e : ElfSym} (h1 : e.is_defined = true) (h2 : e.st_bind ≠ STB_WEAK) :
    2 ≤ strengthOf e := by
  unfold strengthOf
  rw [if_neg (by simp [h1]), if_neg (by simp [h2])]
  by_cases h3 : e.is_common = true
  · rw [if_pos h3]
  · rw [if_neg h3]
    omega

lemma strength_two_le {e : ElfSym} (h : 2 ≤ strengthOf e) :
    e.is_defined = true ∧ e.st_bind ≠ STB_WEAK := by
  unfold strengthOf at h
  by_cases h1 : e.is_defined = true
  · by_cases h2 : e.st_bind = STB_WEAK
    · rw [if_neg (by simp [h1]), if_pos (by simp [h2])] at h
      omega
    · exact ⟨h1, h2⟩
  · rw [if_pos (by simp [h1])] at h
    omega

lemma resolve_foldl_strength :
    ∀ (cands : List Candidate) (init : Option Candidate),
      (∀ cur, init = some cur →
        ∃ w, cands.foldl resolve_step init = some w ∧
          strengthOf cur.esym ≤ strengthOf w.esym) ∧
      (∀ c ∈ cands,
        ∃ w, cands.foldl resolve_step init = some w ∧
          strengthOf c.esym ≤ strengthOf w.esym) := by
  intro cands
  induction cands with
  | nil =>
    intro init
    refine ⟨?_, ?_⟩
    · intro cur h
      exact ⟨cur, h, le_refl _⟩
    · intro c hc
      simp at hc
  | cons c0 rest ih =>
    intro init
    cases init with
    | none =>
      refine ⟨?_, ?_⟩
      · intro cur h
        exact absurd h (by simp)
      · intro c hc
        rcases List.mem_cons.1 hc with rfl | hc2
        · exact (ih (some c)).1 c rfl
        · exact (ih (some c0)).2 c hc2
    | some cur0 =>
      cases hcb : cand_better c0 cur0 with
      | true =>
        have hred : (c0 :: rest).foldl resolve_step (some cur0) =
            rest.foldl resolve_step (some c0) := by
          show rest.foldl resolve_step
            (if cand_better c0 cur0 then some c0 else some cur0) = _
          rw [if_pos hcb]
        refine ⟨?_, ?_⟩
        · intro cur h
          have hc : cur = cur0 := by
            injection h with h2
            exact h2.symm
          obtain ⟨w, hw, hle⟩ := (ih (some c0)).1 c0 rfl
          rw [hred, hc]
          exact ⟨w, hw, le_trans (cand_better_true_strength hcb) hle⟩
        · intro c hc
          rw [hred]
          rcases List.mem_cons.1 hc with rfl | hc2
          · exact (ih (some c)).1 c rfl
          · exact (ih (some c0)).2 c hc2
      | false =>
        have hred : (c0 :: rest).foldl resolve_step (some cur0) =
            rest.foldl resolve_step (some cur0) := by
          show rest.foldl resolve_step
            (if cand_better c0 cur0 then some c0 else some cur0) = _
          rw [if_neg (by rw [hcb]; exact Bool.false_ne_true)]
        refine ⟨?_, ?_⟩
        · intro cur h
          have hc : cur = cur0 := by
            injection h with h2
            exact h2.symm
          rw [hred, hc]
          exact (ih (some cur0)).1 cur0 rfl
        · intro c hc
          rw [hred]
          rcases List.mem_cons.1 hc with rfl | hc2
          · obtain ⟨w, hw, hle⟩ := (ih (some cur0)).1 cur0 rfl
            exact ⟨w, hw, le_trans (cand_better_false_strength hcb) hle⟩
          · exact (ih (some cur0)).2 c hc2

lemma dup_cond_iff (objs : List ObjectFile) (f : ObjectFile) (i : Nat) :
    dup_cond objs f i = true ↔
      ((f.elf_syms.getD i ⟨1, 0, 0⟩).is_defined = true ∧
       (f.elf_syms.getD i ⟨1, 0, 0⟩).st_bind ≠ STB_WEAK ∧
       (!(f.elf_syms.getD i ⟨1, 0, 0⟩).is_abs &&
        !(f.elf_syms.getD i ⟨1, 0, 0⟩).is_common &&
        !(f.sections.getD (f.elf_syms.getD i ⟨1, 0, 0⟩).st_shndx false)) = false ∧
       (resolved objs (f.symNames.getD i 0)).map (fun c => c.fileId) ≠ some f.id) := by
  unfold dup_cond
  simp only [Bool.and_eq_true, Bool.not_eq_true', beq_eq_false_iff_ne, decide_eq_true_eq,
    ne_eq, and_assoc]


/-- C1: check_duplicate_symbols reports exactly the strong/strong
collisions (given distinct file ids): a pair (file id, entry index) is in
the accumulated error list iff the index is a global entry of that file
whose symbol entry is defined, non-weak, not eliminated (absolute, common,
or from a live section slot), and the interned symbol resolved to a
different file; the checkpoint at the end of the pass fails iff at least
one error was accumulated (so all offenders of a run are reported
together); and for every reported entry both colliding definitions are
strong: the entry itself and the chosen file's winning entry are both
defined and non-weak. -/
theorem c1_check_duplicate_symbols_strong (objs : List ObjectFile)
    (hids : (objs.map (fun f => f.id)).Nodup) :
    (∀ f ∈ objs, ∀ i : Nat,
      ((f.id, i) ∈ (check_duplicate_symbols objs).1 ↔
        (f.first_global ≤ i ∧ i < f.elf_syms.length ∧
         (f.elf_syms.getD i ⟨1, 0, 0⟩).is_defined = true ∧
         (f.elf_syms.getD i ⟨1, 0, 0⟩).st_bind ≠ STB_WEAK ∧
         (!(f.elf_syms.getD i ⟨1, 0, 0⟩).is_abs &&
          !(f.elf_syms.getD i ⟨1, 0, 0⟩).is_common &&
          !(f.sections.getD (f.elf_syms.getD i ⟨1, 0, 0⟩).st_shndx false)) = false ∧
         (resolved objs (f.symNames.getD i 0)).map (fun c => c.fileId) ≠ some f.id))) ∧
    ((check_duplicate_symbols objs).2 = true ↔ (check_duplicate_symbols objs).1 ≠ []) ∧
    (∀ f ∈ objs, ∀ i : Nat, (f.id, i) ∈ (check_duplicate_symbols objs).1 →
      (f.elf_syms.getD i ⟨1, 0, 0⟩).is_defined = true ∧
      (f.elf_syms.getD i ⟨1, 0, 0⟩).st_bind ≠ STB_WEAK ∧
      ∃ w, resolved objs (f.symNames.getD i 0) = some w ∧
        w.fileId ≠ f.id ∧
        w.esym.is_defined = true ∧ w.esym.st_bind ≠ STB_WEAK) := by
  have hmem : ∀ f ∈ objs, ∀ i : Nat,
      ((f.id, i) ∈ (check_duplicate_symbols objs).1 ↔
        (f.first_global ≤ i ∧ i < f.elf_syms.length ∧ dup_cond objs f i = true)) := by
    intro f hf i
    constructor
    · intro h
      have h2 : (f.id, i) ∈ objs.flatMap (fun g =>
          ((List.range g.elf_syms.length).filter (fun j =>
            decide (g.first_global ≤ j) && dup_cond objs g j)).map
            (fun j => (g.id, j))) := h
      obtain ⟨g, hg, hmm⟩ := List.mem_flatMap.1 h2
      obtain ⟨j, hj, hje⟩ := List.mem_map.1 hmm
      have hpair : g.id = f.id ∧ j = i := by
        have h3 := hje
        rw [Prod.mk.injEq] at h3
        exact h3
      have hgf : g = f := List.inj_on_of_nodup_map hids hg hf hpair.1
      have hji : j = i := hpair.2
      subst hgf
      subst hji
      obtain ⟨hrange, hp⟩ := List.mem_filter.1 hj
      rw [Bool.and_eq_true] at hp
      obtain ⟨hble, hdup⟩ := hp
      exact ⟨of_decide_eq_true hble, List.mem_range.1 hrange, hdup⟩
    · rintro ⟨h1, h2, h3⟩
      apply List.mem_flatMap.2
      refine ⟨f, hf, ?_⟩
      apply List.mem_map.2
      refine ⟨i, ?_, rfl⟩
      apply List.mem_filter.2
      refine ⟨List.mem_range.2 h2, ?_⟩
      rw [Bool.and_eq_true]
      exact ⟨decide_eq_true h1, h3⟩
  refine ⟨?_, ?_, ?_⟩
  · intro f hf i
    rw [hmem f hf i, dup_cond_iff]
  · constructor
    · intro h hnil
      have hiE : (check_duplicate_symbols objs).1.isEmpty = true := by
        rw [hnil]
        rfl
      rw [show (check_duplicate_symbols objs).2 =
        !(check_duplicate_symbols objs).1.isEmpty from rfl, hiE] at h
      exact absurd h (by decide)
    · intro h
      rw [show (check_duplicate_symbols objs).2 =
        !(check_duplicate_symbols objs).1.isEmpty from rfl]
      cases hE : (check_duplicate_symbols objs).1.isEmpty
      · rfl
      · exact absurd (List.isEmpty_iff.1 hE) h
  · intro f hf i h
    obtain ⟨h1, h2, h3⟩ := (hmem f hf i).1 h
    obtain ⟨hd, hw, _helim, hres⟩ := (dup_cond_iff objs f i).1 h3
    have hcand : (⟨f.id, f.priority, f.elf_syms.getD i ⟨1, 0, 0⟩⟩ : Candidate) ∈
        candidates objs (f.symNames.getD i 0) := by
      apply List.mem_flatMap.2
      refine ⟨f, hf, ?_⟩
      apply List.mem_filterMap.2
      refine ⟨i, List.mem_range.2 h2, ?_⟩
      rw [if_pos ⟨h1, rfl, hd⟩]
    obtain ⟨w, hwre, hwstr⟩ :=
      (resolve_foldl_strength (candidates objs (f.symNames.getD i 0)) none).2 _ hcand
    have hres2 : resolved objs (f.symNames.getD i 0) = some w := hwre
    have hwstr2 : 2 ≤ strengthOf w.esym :=
      le_trans (strength_ge_two hd hw) hwstr
    obtain ⟨hwd, hwb⟩ := strength_two_le hwstr2
    have hwid : w.fileId ≠ f.id := by
      intro he
      apply hres
      rw [hres2]
      show some w.fileId = some f.id
      rw [he]
    exact ⟨hd, hw, w, hres2, hwid, hwd, hwb⟩

/-- C1 witness: two files both defining global symbol 5 strongly from live
sections; the second file (losing on priority) gets exactly the error
(2, 0), the first file gets none, and the checkpoint fails. -/
theorem c1_check_duplicate_symbols_strong_witness :
    (((2 : Nat), (0 : Nat)) ∈ (check_duplicate_symbols
      [⟨1, 1, 0, [⟨1, 1, 0⟩], [5], [true, true]⟩,
       ⟨2, 2, 0, [⟨1, 1, 0⟩], [5], [true, true]⟩]).1 ↔
      (let f : ObjectFile := ⟨2, 2, 0, [⟨1, 1, 0⟩], [5], [true, true]⟩
       let objs : List ObjectFile :=
        [⟨1, 1, 0, [⟨1, 1, 0⟩], [5], [true, true]⟩,
         ⟨2, 2, 0, [⟨1, 1, 0⟩], [5], [true, true]⟩]
       f.first_global ≤ 0 ∧ 0 < f.elf_syms.length ∧
       (f.elf_syms.getD 0 ⟨1, 0, 0⟩).is_defined = true ∧
       (f.elf_syms.getD 0 ⟨1, 0, 0⟩).st_bind ≠ STB_WEAK ∧
       (!(f.elf_syms.getD 0 ⟨1, 0, 0⟩).is_abs &&
        !(f.elf_syms.getD 0 ⟨1, 0, 0⟩).is_common &&
        !(f.sections.getD (f.elf_syms.getD 0 ⟨1, 0, 0⟩).st_shndx false)) = false ∧
       (resolved objs (f.symNames.getD 0 0)).map (fun c => c.fileId) ≠ some f.id)) :=
  (c1_check_duplicate_symbols_strong
    [⟨1, 1, 0, [⟨1, 1, 0⟩], [5], [true, true]⟩,
     ⟨2, 2, 0, [⟨1, 1, 0⟩], [5], [true, true]⟩]
    (by decide)).1
    ⟨2, 2, 0, [⟨1, 1, 0⟩], [5], [true, true]⟩ (by decide) 0

end Mold
